import Mathlib

/-
Verification development for the TOON (Token-Oriented Object Notation)
encoder/decoder.  JavaScript strings are modelled as `List Char`; JS numbers
(IEEE-754 doubles) are modelled as exact rationals, with the float64 overflow
threshold made explicit where the code tests finiteness.  Fallible code is
modelled with `Except`; the recursive-descent decoder is given explicit fuel
(it consumes at least one input line per recursion, so any fuel larger than
the line count is enough on concrete inputs).
-/

namespace Toon

-- #region JS string primitives

/-- The set of JavaScript whitespace code points (as used by `String.trim`,
`Number(...)` and `parseInt`): ASCII whitespace, NBSP, Unicode space
separators, line/paragraph separators and the BOM. -/
def jsWhitespace (c : Char) : Bool :=
  ([9, 10, 11, 12, 13, 32, 160, 5760, 8192, 8193, 8194, 8195, 8196, 8197,
    8198, 8199, 8200, 8201, 8202, 8232, 8233, 8239, 8287, 12288, 65279] : List Nat).contains c.toNat

/-- JS `String.prototype.trimStart`. -/
def jsTrimStart (s : List Char) : List Char :=
  s.dropWhile (fun c => jsWhitespace c)

/-- JS `String.prototype.trimEnd`. -/
def jsTrimEnd (s : List Char) : List Char :=
  ((s.reverse).dropWhile (fun c => jsWhitespace c)).reverse

/-- JS `String.prototype.trim`. -/
def jsTrim (s : List Char) : List Char :=
  jsTrimEnd (jsTrimStart s)

/-- JS `String.prototype.split` with a single-character separator
(`"".split(c) = [""]`, a trailing separator yields a trailing empty line). -/
def jsSplit (sep : Char) : List Char → List (List Char)
  | [] => [[]]
  | c :: rest =>
    if c = sep then [] :: jsSplit sep rest
    else
      match jsSplit sep rest with
      | [] => [[c]]
      | h :: t => (c :: h) :: t

/-- Helper for `idxFrom`: first index `≥ i` (in the original string) at which
the character occurs, scanning the given suffix. -/
def idxFromGo (c : Char) : List Char → Nat → Option Nat
  | [], _ => none
  | a :: r, i => if a = c then some i else idxFromGo c r (i + 1)

/-- JS `String.prototype.indexOf(c, start)`, with `none` for `-1`. -/
def idxFrom (s : List Char) (c : Char) (start : Nat) : Option Nat :=
  idxFromGo c (s.drop start) start

-- #endregion

-- #region Error model

/-- Decoder-internal failures (every `throw` site of the decoder except the
empty-input check of `decode` itself, which gets its own kind in `DErr`).
`outOfFuel` is an artifact of the fuel-based embedding of the recursion. -/
inductive Err where
  | outOfFuel
  | noContent
  | expectedItem
  | invalidEscape
  | unterminated
  | afterQuote
  | missingColon
  | lengthMismatch
  | blankInArray
  | extraItems
deriving DecidableEq

/-- Scanner failures of strict mode; both carry the 1-based line number that
the thrown `SyntaxError` message reports. -/
inductive ScanErr where
  | tabInIndent (lineNumber : Nat)
  | indentNotMultiple (lineNumber : Nat)
deriving DecidableEq

/-- Top-level `decode` failures: the empty-input `TypeError`, a strict-mode
scanner error, or a decoder-internal error. -/
inductive DErr where
  | emptyInput
  | scan (e : ScanErr)
  | inner (e : Err)
deriving DecidableEq

-- #endregion

-- #region shared/string-utils.ts

/-- One global single-character `String.prototype.replace(/c/g, r)` pass. -/
def jsReplaceChar (c : Char) (r : List Char) (s : List Char) : List Char :=
  s.foldr (fun a acc => (if a = c then r else [a]) ++ acc) []

/-- `escapeString`: the five chained global replaces of the source
(backslash, double quote, newline, carriage return, tab — in that order). -/
def escapeString (value : List Char) : List Char :=
  jsReplaceChar '\t' ['\\', 't']
    (jsReplaceChar '\r' ['\\', 'r']
      (jsReplaceChar '\n' ['\\', 'n']
        (jsReplaceChar '"' ['\\', '"']
          (jsReplaceChar '\\' ['\\', '\\'] value))))

/-- `unescapeString`: processes `\n`, `\t`, `\r`, `\\`, `\"`; any other
escape (including a trailing lone backslash) is a `SyntaxError`. -/
def unescapeString : List Char → Except Err (List Char)
  | [] => .ok []
  | c :: rest =>
    if c = '\\' then
      match rest with
      | [] => .error .invalidEscape
      | n :: rest' =>
        if n = 'n' then (unescapeString rest').map (fun r => '\n' :: r)
        else if n = 't' then (unescapeString rest').map (fun r => '\t' :: r)
        else if n = 'r' then (unescapeString rest').map (fun r => '\r' :: r)
        else if n = '\\' then (unescapeString rest').map (fun r => '\\' :: r)
        else if n = '"' then (unescapeString rest').map (fun r => '"' :: r)
        else .error .invalidEscape
    else (unescapeString rest).map (fun r => c :: r)

/-- Loop of `findClosingQuote`, scanning the suffix that starts at index `i`
of the original string: `\X` pairs are skipped (when `X` exists), an
unescaped `"` returns its index.  The loop's `i+1 < length` guard corresponds
to the nonempty-`rest` pattern; a trailing lone backslash just advances. -/
def fcqGo : List Char → Nat → Option Nat
  | [], _ => none
  | c :: rest, i =>
    if c = '\\' ∧ rest ≠ [] then
      match rest with
      | _ :: rest' => fcqGo rest' (i + 2)
      | [] => none
    else if c = '"' then some i
    else fcqGo rest (i + 1)

/-- `findClosingQuote(content, start)`: index of the closing quote matching
the opening quote at `start`, or `none` for `-1`. -/
def findClosingQuote (content : List Char) (start : Nat) : Option Nat :=
  fcqGo (content.drop (start + 1)) (start + 1)

/-- Loop of `findUnquotedChar`: like `fcqGo` but `\X` is only an escape while
inside quotes, `"` flips the quote state, and the target character matches
only outside quotes. -/
def fuqGo (ch : Char) : List Char → Nat → Bool → Option Nat
  | [], _, _ => none
  | c :: rest, i, q =>
    if c = '\\' ∧ rest ≠ [] ∧ q = true then
      match rest with
      | _ :: rest' => fuqGo ch rest' (i + 2) q
      | [] => none
    else if c = '"' then fuqGo ch rest (i + 1) (!q)
    else if c = ch ∧ q = false then some i
    else fuqGo ch rest (i + 1) q

/-- `findUnquotedChar(content, char)` with the default start 0. -/
def findUnquotedChar (content : List Char) (ch : Char) : Option Nat :=
  fuqGo ch content 0 false

-- #endregion

-- #region shared/literal-utils.ts and the JS number model

/-- `isBooleanOrNullLiteral`. -/
def isBooleanOrNullLiteral (t : List Char) : Bool :=
  t == "true".data || t == "false".data || t == "null".data

def digitVal (c : Char) : Nat := c.toNat - 48

def digitsVal (ds : List Char) : Nat :=
  ds.foldl (fun a c => a * 10 + digitVal c) 0

def isHexDigitCh (c : Char) : Bool :=
  c.isDigit || (decide (97 ≤ c.toNat) && decide (c.toNat ≤ 102))
    || (decide (65 ≤ c.toNat) && decide (c.toNat ≤ 70))

def hexDigitVal (c : Char) : Nat :=
  if c.isDigit then c.toNat - 48
  else if decide (97 ≤ c.toNat) && decide (c.toNat ≤ 102) then c.toNat - 87
  else c.toNat - 55

def hexVal (ds : List Char) : Nat :=
  ds.foldl (fun a c => a * 16 + hexDigitVal c) 0

def isOctDigitCh (c : Char) : Bool :=
  decide (48 ≤ c.toNat) && decide (c.toNat ≤ 55)

def octVal (ds : List Char) : Nat :=
  ds.foldl (fun a c => a * 8 + digitVal c) 0

def isBinDigitCh (c : Char) : Bool :=
  c == '0' || c == '1'

def binVal (ds : List Char) : Nat :=
  ds.foldl (fun a c => a * 2 + digitVal c) 0

/-- Parses an optional JS `ExponentPart` at the end of a decimal literal:
`[]` means exponent 0; `e`/`E`, an optional sign and at least one digit must
consume the entire rest; anything else is a mismatch (`none`). -/
def expParse : List Char → Option Int
  | [] => some 0
  | e :: r2 =>
    if e = 'e' ∨ e = 'E' then
      let sr : Int × List Char :=
        match r2 with
        | '+' :: t => (1, t)
        | '-' :: t => (-1, t)
        | _ => (1, r2)
      let ds := sr.2.takeWhile Char.isDigit
      if ds = [] ∨ sr.2.drop ds.length ≠ [] then none
      else some (sr.1 * (digitsVal ds : Int))
    else none

/-- Parses an unsigned JS `StrUnsignedDecimalLiteral` (without `Infinity`):
`Digits ['.' Digits?] [Exp]` or `'.' Digits [Exp]`, full match.  The exact
mathematical value of the literal is returned as a mantissa/scale pair
`(m, e)` meaning `m · 10^e` (rationals are avoided so that everything
reduces inside the kernel). -/
def decParse (s : List Char) : Option (Nat × Int) :=
  let ip := s.takeWhile Char.isDigit
  let r1 := s.drop ip.length
  if ip = [] then
    match r1 with
    | '.' :: r2 =>
      let fp := r2.takeWhile Char.isDigit
      if fp = [] then none
      else
        match expParse (r2.drop fp.length) with
        | some e => some (digitsVal fp, e - (fp.length : Int))
        | none => none
    | _ => none
  else
    match r1 with
    | '.' :: r2 =>
      let fp := r2.takeWhile Char.isDigit
      match expParse (r2.drop fp.length) with
      | some e => some (digitsVal (ip ++ fp), e - (fp.length : Int))
      | none => none
    | _ =>
      match expParse r1 with
      | some e => some (digitsVal ip, e)
      | none => none

/-- Result of JS `Number(string)` before rounding: `NaN`, an infinity, or the
exact value `m · 10^e`. -/
inductive JsNum where
  | nan
  | infinite
  | finite (m : Int) (e : Int)
deriving DecidableEq

/-- JS `Number(string)`: trims, accepts the empty string as 0, an optional
sign with a decimal literal or `Infinity`, or an unsigned `0x`/`0o`/`0b`
literal; everything else is `NaN`. -/
def jsNumber (t : List Char) : JsNum :=
  let u := jsTrim t
  if u = [] then .finite 0 0
  else
    let hadSign := u.head? = some '+' ∨ u.head? = some '-'
    let neg := u.head? = some '-'
    let body := if hadSign then u.drop 1 else u
    if body = "Infinity".data then .infinite
    else
      match body with
      | '0' :: x :: ds =>
        if x = 'x' ∨ x = 'X' then
          if hadSign ∨ ds = [] ∨ ¬(ds.all isHexDigitCh) then .nan
          else .finite (hexVal ds : Int) 0
        else if x = 'o' ∨ x = 'O' then
          if hadSign ∨ ds = [] ∨ ¬(ds.all isOctDigitCh) then .nan
          else .finite (octVal ds : Int) 0
        else if x = 'b' ∨ x = 'B' then
          if hadSign ∨ ds = [] ∨ ¬(ds.all isBinDigitCh) then .nan
          else .finite (binVal ds : Int) 0
        else
          match decParse body with
          | some me => .finite (if neg then -(me.1 : Int) else (me.1 : Int)) me.2
          | none => .nan
      | _ =>
        match decParse body with
        | some me => .finite (if neg then -(me.1 : Int) else (me.1 : Int)) me.2
        | none => .nan

/-- The float64 overflow threshold `2^1024 - 2^970` as a decimal literal (see
`ovfNat_eq`): an exact value `v` rounds to a finite double iff `|v|` is
strictly below it. -/
def ovfNat : ℕ :=
  179769313486231580793728971405303415079934132710037826936173778980444968292764750946649017977587207096330286416692887910946555547851940402630657488671505820681908902000708383676273854845817711531764475730270069855571366959622842914819860834936475292719074168444365510704342711559699508093042880177904174497792

theorem ovfNat_eq : ovfNat = 2 ^ 1024 - 2 ^ 970 := by norm_num [ovfNat]

/-- Whether the exact value `m · 10^e` is strictly below the float64 overflow
threshold in absolute value (i.e. `Number.isFinite` holds for it). -/
def jsFiniteLt (m : Int) (e : Int) : Bool :=
  match e with
  | .ofNat k => decide (m.natAbs * 10 ^ k < ovfNat)
  | .negSucc k => decide (m.natAbs < ovfNat * 10 ^ (k + 1))

/-- `isNumericLiteral` (decode side): nonempty, no leading zero (except `0`
itself and `0.x` decimals), and `Number(token)` is a finite number. -/
def isNumericLiteral (t : List Char) : Bool :=
  if t = [] then false
  else if t.length > 1 ∧ t[0]? = some '0' ∧ t[1]? ≠ some '.' then false
  else
    match jsNumber t with
    | .finite m e => jsFiniteLt m e
    | _ => false

/-- The value `Number.parseFloat` produces on a token accepted by
`isNumericLiteral` (such tokens are full decimal literals, on which
`parseFloat` and `Number` agree), as an exact mantissa/scale pair. -/
def numValueOf (t : List Char) : Int × Int :=
  match jsNumber t with
  | .finite m e => (m, e)
  | _ => (0, 0)

-- #endregion

-- #region shared/validation.ts (encoder-side predicates)

/-- Consumes `\d+`: `some rest` iff at least one leading digit. -/
def eatDigits1 (s : List Char) : Option (List Char) :=
  let d := s.takeWhile Char.isDigit
  if d = [] then none else some (s.drop d.length)

/-- Full match of the regex `/^-?\d+(?:\.\d+)?(?:e[+-]?\d+)?$/i` (the first
alternative of the source's `isNumericLike`). -/
def matchesDecimalRegex (s : List Char) : Bool :=
  let s1 := if s.head? = some '-' then s.drop 1 else s
  match eatDigits1 s1 with
  | none => false
  | some r1 =>
    let r2 :=
      match r1 with
      | '.' :: rf =>
        (match eatDigits1 rf with
         | some rr => rr
         | none => r1)
      | _ => r1
    let r3 :=
      match r2 with
      | e :: rext =>
        if e = 'e' ∨ e = 'E' then
          let rs :=
            match rext with
            | '+' :: t => t
            | '-' :: t => t
            | _ => rext
          (match eatDigits1 rs with
           | some rr => rr
           | none => r2)
        else r2
      | [] => r2
    r3 = []

/-- Full match of `/^0\d+$/` (leading-zero integers). -/
def matchesLeadingZeroInt (s : List Char) : Bool :=
  s.head? == some '0' && s.drop 1 ≠ [] && (s.drop 1).all Char.isDigit

/-- `isNumericLike` (encode side): either regex above. -/
def isNumericLike (v : List Char) : Bool :=
  matchesDecimalRegex v || matchesLeadingZeroInt v

/-- `isSafeUnquoted(value, delimiter)`: whether a string value may be emitted
without quotes under the active delimiter. -/
def isSafeUnquoted (value : List Char) (delim : Char) : Bool :=
  if value = [] then false
  else if value ≠ jsTrim value then false
  else if isBooleanOrNullLiteral value || isNumericLike value then false
  else if value.contains ':' then false
  else if value.contains '"' || value.contains '\\' then false
  else if value.any (fun c => c = '[' ∨ c = ']' ∨ c = '{' ∨ c = '}') then false
  else if value.any (fun c => c = '\n' ∨ c = '\r' ∨ c = '\t') then false
  else if value.contains delim then false
  else if value.head? = some '-' then false
  else true

/-- `encodeStringLiteral(value, delimiter)` from encode/primitives.ts. -/
def encodeStringLiteral (value : List Char) (delim : Char) : List Char :=
  if isSafeUnquoted value delim then value
  else '"' :: (escapeString value ++ ['"'])

/-- Modelled from the spec: the encoder's root dispatch (encoders.ts is not
under src/) emits a primitive root as a single line holding its encoded
token, with no indentation, no trailing newline and the default comma
delimiter active; for a string root this line is `encodeStringLiteral v ','`
(src's encode/primitives.ts). -/
def encodeRootString (v : List Char) : List Char :=
  encodeStringLiteral v ','

-- #endregion

-- #region Data model (types.ts)

/-- The `Delimiter` union type `',' | '\t' | '|'`. -/
inductive Delim where
  | comma
  | tab
  | pipe
deriving DecidableEq

def Delim.char : Delim → Char
  | .comma => ','
  | .tab => '\t'
  | .pipe => '|'

/-- `JsonPrimitive`; a number is carried as the exact value `m · 10^e` of its
source literal; `undef` models the JS `undefined` that a tabular row narrower
than the field list produces in non-strict mode. -/
inductive JPrim where
  | null
  | bool (b : Bool)
  | num (m : Int) (e : Int)
  | str (s : List Char)
  | undef
deriving DecidableEq

/-- `JsonValue`: primitives, arrays, and insertion-ordered objects. -/
inductive Json where
  | prim (p : JPrim)
  | arr (elems : List Json)
  | obj (entries : List (List Char × Json))

/-- `ParsedLine`. -/
structure PLine where
  raw : List Char
  indent : Nat
  content : List Char
  depth : Nat
  lineNumber : Nat
deriving DecidableEq

/-- `BlankLineInfo`. -/
structure BlankInfo where
  lineNumber : Nat
  indent : Nat
  depth : Nat
deriving DecidableEq

/-- `ArrayHeaderInfo`; `length` is an `Int` because `Number.parseInt` can
produce negative values. -/
structure HeaderInfo where
  key : Option (List Char)
  length : Int
  delimiter : Delim
  fields : Option (List (List Char))
  hasLengthMarker : Bool
deriving DecidableEq

/-- `ResolvedDecodeOptions`. -/
structure DOpts where
  indent : Nat
  strict : Bool
deriving DecidableEq

/-- The resolved decode defaults (`indent = 2`, `strict = true`). -/
def defaultDOpts : DOpts := ⟨2, true⟩

/-- `LineCursor` state: the parsed lines, the current index, and the blank
line records. -/
structure Cursor where
  lines : List PLine
  idx : Nat
  blanks : List BlankInfo

def Cursor.peek (c : Cursor) : Option PLine := c.lines[c.idx]?

def Cursor.advance (c : Cursor) : Cursor := { c with idx := c.idx + 1 }

def Cursor.current (c : Cursor) : Option PLine :=
  if c.idx > 0 then c.lines[c.idx - 1]? else none

def Cursor.atEnd (c : Cursor) : Bool := decide (c.lines.length ≤ c.idx)

-- #endregion

-- #region decode/scanner.ts

def computeDepthFromIndent (indentSpaces indentSize : Nat) : Nat :=
  indentSpaces / indentSize

/-- The per-line loop of `toParsedLines`, with `n` the 1-based number of the
first line of the remaining list: count leading spaces, record blank lines,
run the strict checks (tab in the leading whitespace region, then indent
divisibility), and emit the parsed line. -/
def scanGo (indentSize : Nat) (strict : Bool) : List (List Char) → Nat → Except ScanErr (List PLine × List BlankInfo)
  | [], _ => .ok ([], [])
  | raw :: rest, n =>
    let indent := (raw.takeWhile (fun c => c = ' ')).length
    let content := raw.drop indent
    if jsTrim content = [] then
      (scanGo indentSize strict rest (n + 1)).map
        (fun pb => (pb.1, ⟨n, indent, computeDepthFromIndent indent indentSize⟩ :: pb.2))
    else
      let depth := computeDepthFromIndent indent indentSize
      if strict then
        let wsEnd := (raw.takeWhile (fun c => c = ' ' ∨ c = '\t')).length
        if (raw.take wsEnd).contains '\t' then .error (.tabInIndent n)
        else if indent > 0 ∧ indent % indentSize ≠ 0 then .error (.indentNotMultiple n)
        else
          (scanGo indentSize strict rest (n + 1)).map
            (fun pb => (⟨raw, indent, content, depth, n⟩ :: pb.1, pb.2))
      else
        (scanGo indentSize strict rest (n + 1)).map
          (fun pb => (⟨raw, indent, content, depth, n⟩ :: pb.1, pb.2))

/-- `toParsedLines`: all-whitespace input scans to no lines at all; otherwise
the input is split on `\n` and scanned line by line. -/
def toParsedLines (source : List Char) (indentSize : Nat) (strict : Bool) : Except ScanErr (List PLine × List BlankInfo) :=
  if jsTrim source = [] then .ok ([], [])
  else scanGo indentSize strict (jsSplit '\n' source) 1

-- #endregion

-- #region decode/parser.ts (non-recursive parts)

/-- `Number.parseInt(s, 10)`: skip whitespace, optional sign, then the
longest digit prefix; `none` (NaN) iff that prefix is empty.  Trailing
non-digit characters are ignored. -/
def jsParseInt10 (s : List Char) : Option Int :=
  let t := s.dropWhile (fun c => jsWhitespace c)
  let sr : Int × List Char :=
    if t.head? = some '+' then (1, t.drop 1)
    else if t.head? = some '-' then (-1, t.drop 1)
    else (1, t)
  let ds := sr.2.takeWhile Char.isDigit
  if ds = [] then none else some (sr.1 * (digitsVal ds : Int))

/-- First phase of `parseBracketSegment`: consume an optional leading `#`
(the length marker). -/
def bracketStripMarker (seg : List Char) : List Char × Bool :=
  if seg.head? = some '#' then (seg.drop 1, true) else (seg, false)

/-- Second phase of `parseBracketSegment`: consume an optional trailing tab
or pipe delimiter suffix. -/
def bracketStripDelim (s : List Char) (dflt : Delim) : List Char × Delim :=
  if s.getLast? = some '\t' then (s.dropLast, .tab)
  else if s.getLast? = some '|' then (s.dropLast, .pipe)
  else (s, dflt)

/-- `parseBracketSegment`: `none` models the thrown `TypeError` (which the
only caller catches and turns into a non-header). -/
def parseBracketSegment (seg : List Char) (dflt : Delim) : Option (Int × Delim × Bool) :=
  let m := bracketStripMarker seg
  let d := bracketStripDelim m.1 dflt
  match jsParseInt10 d.1 with
  | none => none
  | some n => some (n, d.2, m.2)

/-- The character loop of `parseDelimitedValues`, transliterated with the
current-value buffer `cur` and the output accumulator `acc`.  The `[]`
sub-branch of the escape case is unreachable (the guard requires a nonempty
rest); its value is what the source loop would do with a lone trailing
backslash (append it and flush). -/
def pdvGo (dc : Char) : List Char → Bool → List Char → List (List Char) → List (List Char)
  | [], _, cur, acc =>
    if cur = [] ∧ acc = [] then acc else acc ++ [jsTrim cur]
  | c :: rest, q, cur, acc =>
    if c = '\\' ∧ rest ≠ [] ∧ q = true then
      match rest with
      | d' :: rest' => pdvGo dc rest' q (cur ++ [c, d']) acc
      | [] => acc ++ [jsTrim (cur ++ [c])]
    else if c = '"' then pdvGo dc rest (!q) (cur ++ [c]) acc
    else if c = dc ∧ q = false then pdvGo dc rest q [] (acc ++ [jsTrim cur])
    else pdvGo dc rest q (cur ++ [c]) acc

/-- `parseDelimitedValues(input, delimiter)`. -/
def parseDelimitedValues (input : List Char) (d : Delim) : List (List Char) :=
  pdvGo d.char input false [] []

/-- `parseStringLiteral`: a trimmed token starting with `"` must close its
quote exactly at the end and its contents are unescaped; any other token is
returned trimmed. -/
def parseStringLiteral (token : List Char) : Except Err (List Char) :=
  let trimmed := jsTrim token
  if trimmed.head? = some '"' then
    match findClosingQuote trimmed 0 with
    | none => .error .unterminated
    | some ci =>
      if ci ≠ trimmed.length - 1 then .error .afterQuote
      else unescapeString ((trimmed.take ci).drop 1)
  else .ok trimmed

/-- `parsePrimitiveToken`. -/
def parsePrimitiveToken (token : List Char) : Except Err JPrim :=
  let trimmed := jsTrim token
  if trimmed = [] then .ok (.str [])
  else if trimmed.head? = some '"' then (parseStringLiteral trimmed).map .str
  else if isBooleanOrNullLiteral trimmed then
    if trimmed = "true".data then .ok (.bool true)
    else if trimmed = "false".data then .ok (.bool false)
    else .ok JPrim.null
  else if isNumericLiteral trimmed then .ok (.num (numValueOf trimmed).1 (numValueOf trimmed).2)
  else .ok (.str trimmed)

/-- `mapRowValuesToPrimitives`. -/
def mapRowValuesToPrimitives (values : List (List Char)) : Except Err (List JPrim) :=
  values.mapM parsePrimitiveToken

/-- `parseUnquotedKey`: scan to the first colon (at any position, quoted or
not, since the scan starts outside a quote context), trim the key, skip the
colon. -/
def parseUnquotedKey (content : List Char) (start : Nat) : Except Err (List Char × Nat) :=
  match idxFrom content ':' start with
  | none => .error .missingColon
  | some e => .ok (jsTrim ((content.take e).drop start), e + 1)

/-- `parseQuotedKey`. -/
def parseQuotedKey (content : List Char) (start : Nat) : Except Err (List Char × Nat) :=
  match findClosingQuote content start with
  | none => .error .unterminated
  | some ci =>
    match unescapeString ((content.take ci).drop (start + 1)) with
    | .error e => .error e
    | .ok key =>
      if content[ci + 1]? = some ':' then .ok (key, ci + 2)
      else .error .missingColon

/-- `parseKeyToken`. -/
def parseKeyToken (content : List Char) (start : Nat) : Except Err (List Char × Nat) :=
  if content[start]? = some '"' then parseQuotedKey content start
  else parseUnquotedKey content start

/-- `isArrayHeaderAfterHyphen`: trimmed content starts with `[` and there is
a top-level (outside-quotes) colon. -/
def isArrayHeaderAfterHyphen (content : List Char) : Bool :=
  (jsTrim content).head? == some '[' && (findUnquotedChar content ':').isSome

/-- `isObjectFirstFieldAfterHyphen`. -/
def isObjectFirstFieldAfterHyphen (content : List Char) : Bool :=
  (findUnquotedChar content ':').isSome

/-- `isKeyValueLine`: for a quoted start the closing quote must be followed
directly by a colon; otherwise any colon at all (even inside quotes) counts. -/
def isKeyValueLine (content : List Char) : Bool :=
  if content.head? = some '"' then
    match findClosingQuote content 0 with
    | none => false
    | some ci => content[ci + 1]? == some ':'
  else content.contains ':'

/-- `parseArrayHeaderLine`: `.ok none` models the source's `return undefined`
(not an array header); a thrown error can escape only from the field-list
`parseStringLiteral` calls (the `parseBracketSegment` throw is caught). -/
def parseArrayHeaderLine (content : List Char) (dflt : Delim) : Except Err (Option (HeaderInfo × Option (List Char))) :=
  if (jsTrimStart content).head? = some '"' then .ok none
  else
    match idxFrom content '[' 0 with
    | none => .ok none
    | some bs =>
      match idxFrom content ']' bs with
      | none => .ok none
      | some be =>
        let braceStartO := idxFrom content '{' be
        let braceEnd :=
          match braceStartO, idxFrom content ':' be with
          | some brs, some ci0 =>
            if brs < ci0 then
              match idxFrom content '}' brs with
              | some fe => fe + 1
              | none => be + 1
            else be + 1
          | _, _ => be + 1
        match idxFrom content ':' (max be braceEnd) with
        | none => .ok none
        | some colonIndex =>
          let key := if bs > 0 then some (content.take bs) else none
          let afterColon := jsTrim (content.drop (colonIndex + 1))
          let bracketContent := (content.take be).drop (bs + 1)
          match parseBracketSegment bracketContent dflt with
          | none => .ok none
          | some (len, delim, marker) =>
            let fieldsE : Except Err (Option (List (List Char))) :=
              match braceStartO with
              | some brs =>
                if brs < colonIndex then
                  match idxFrom content '}' brs with
                  | some fe =>
                    if fe < colonIndex then
                      ((parseDelimitedValues ((content.take fe).drop (brs + 1)) delim).mapM
                        (fun f => parseStringLiteral (jsTrim f))).map some
                    else .ok none
                  | none => .ok none
                else .ok none
              | none => .ok none
            match fieldsE with
            | .error e => .error e
            | .ok fields =>
              .ok (some (⟨key, len, delim, fields, marker⟩,
                if afterColon = [] then none else some afterColon))

-- #endregion

-- #region decode/validation.ts (spec-modelled)

/-- Modelled from the spec: `assertExpectedCount` (decode/validation.ts is
not under src/).  Per the `DecodeOptions` documentation ("When true, enforce
strict validation of array lengths and tabular row counts"), a count mismatch
is an error exactly in strict mode. -/
def assertExpectedCount (actual : Nat) (expected : Int) (o : DOpts) : Except Err Unit :=
  if o.strict ∧ (actual : Int) ≠ expected then .error .lengthMismatch else .ok ()

/-- Modelled from the spec: `validateNoBlankLinesInRange` — in strict mode, a
blank line recorded between the first and last item/row line of an array is a
`StrictBlankInArray` error. -/
def validateNoBlankLinesInRange (startLine endLine : Nat) (blanks : List BlankInfo) (strict : Bool) : Except Err Unit :=
  if strict ∧ blanks.any (fun b => startLine ≤ b.lineNumber ∧ b.lineNumber ≤ endLine) then
    .error .blankInArray
  else .ok ()

/-- Modelled from the spec: `validateNoExtraListItems` — in strict mode, a
further `- ` line at the item depth after the declared count is a surplus
item error. -/
def validateNoExtraListItems (c : Cursor) (itemDepth : Nat) : Except Err Unit :=
  match c.peek with
  | some l =>
    if l.depth = itemDepth ∧ ("- ".data).isPrefixOf l.content then .error .extraItems
    else .ok ()
  | none => .ok ()

/-- Modelled from the spec: `validateNoExtraTabularRows` — in strict mode, a
further line at the row depth after the declared count is a surplus row
error. -/
def validateNoExtraTabularRows (c : Cursor) (rowDepth : Nat) : Except Err Unit :=
  match c.peek with
  | some l => if l.depth = rowDepth then .error .extraItems else .ok ()
  | none => .ok ()

-- #endregion

-- #region decode/decoders.ts

/-- JS object property assignment `obj[k] = v` on an insertion-ordered
association list: an existing key keeps its position and gets the new value,
a new key is appended. -/
def jsAssign : List (List Char × Json) → List Char → Json → List (List Char × Json)
  | [], k, v => [(k, v)]
  | (k', v') :: t, k, v =>
    if k' = k then (k', v) :: t else (k', v') :: jsAssign t k v

/-- The row-object construction of `decodeTabularArray`: for each field index
`obj[fields[i]] = primitives[i]`, with JS `undefined` when the row is
narrower than the field list. -/
def buildRowObj (fields : List (List Char)) (prims : List JPrim) : List (List Char × Json) :=
  (List.range fields.length).foldl
    (fun acc i => jsAssign acc (fields.getD i []) (Json.prim (prims.getD i JPrim.undef))) []

/-- `decodeInlinePrimitiveArray`. -/
def decodeInlinePrimitiveArray (h : HeaderInfo) (iv : List Char) (o : DOpts) : Except Err (List JPrim) :=
  if jsTrim iv = [] then
    (assertExpectedCount 0 h.length o).map (fun _ => [])
  else
    match mapRowValuesToPrimitives (parseDelimitedValues iv h.delimiter) with
    | .error e => .error e
    | .ok prims =>
      match assertExpectedCount prims.length h.length o with
      | .error e => .error e
      | .ok _ => .ok prims

mutual

/-- `decodeValueFromLines`: root dispatch — root array header, single
primitive line, or object at depth 0. -/
def decodeValueFromLines : Nat → Cursor → DOpts → Except Err (Json × Cursor)
  | 0, _, _ => .error .outOfFuel
  | fuel + 1, c, o =>
    match c.peek with
    | none => .error .noContent
    | some first =>
      match (if isArrayHeaderAfterHyphen first.content then
               parseArrayHeaderLine first.content Delim.comma
             else .ok none) with
      | .error e => .error e
      | .ok (some hi) => decodeArrayFromHeader fuel hi.1 hi.2 c.advance 0 o
      | .ok none =>
        if c.lines.length = 1 ∧ isKeyValueLine first.content = false then
          (parsePrimitiveToken (jsTrim first.content)).map (fun p => (Json.prim p, c))
        else
          match decodeObjectGo fuel c 0 o [] with
          | .error e => .error e
          | .ok (entries, c') => .ok (Json.obj entries, c')

/-- The `while` loop of `decodeObject` at base depth `d`, with the object
built so far in `acc`. -/
def decodeObjectGo : Nat → Cursor → Nat → DOpts → List (List Char × Json) → Except Err (List (List Char × Json) × Cursor)
  | 0, _, _, _, _ => .error .outOfFuel
  | fuel + 1, c, d, o, acc =>
    if c.atEnd then .ok (acc, c)
    else
      match c.peek with
      | none => .ok (acc, c)
      | some line =>
        if line.depth < d then .ok (acc, c)
        else if line.depth = d then
          match decodeKeyValuePair fuel line c d o with
          | .error e => .error e
          | .ok (kv, c') => decodeObjectGo fuel c' d o (jsAssign acc kv.1 kv.2)
        else .ok (acc, c)

termination_by structural fuel _ _ _ _ => fuel
/-- `decodeKeyValuePair`: advance past the line and decode its key/value. -/
def decodeKeyValuePair : Nat → PLine → Cursor → Nat → DOpts → Except Err ((List Char × Json) × Cursor)
  | 0, _, _, _, _ => .error .outOfFuel
  | fuel + 1, line, c, d, o =>
    match decodeKeyValue fuel line.content c.advance d o with
    | .error e => .error e
    | .ok (kvf, c') => .ok ((kvf.1, kvf.2.1), c')

termination_by structural fuel _ _ _ _ => fuel
/-- `decodeKeyValue`: array-header-with-key check first, then the regular
key token, nested object, or inline primitive. -/
def decodeKeyValue : Nat → List Char → Cursor → Nat → DOpts → Except Err ((List Char × Json × Nat) × Cursor)
  | 0, _, _, _, _ => .error .outOfFuel
  | fuel + 1, content, c, d, o =>
    match parseArrayHeaderLine content Delim.comma with
    | .error e => .error e
    | .ok ah =>
      match ah with
      | some hi =>
        if (hi.1.key.getD []) ≠ [] then
          match decodeArrayFromHeader fuel hi.1 hi.2 c d o with
          | .error e => .error e
          | .ok (v, c') => .ok ((hi.1.key.getD [], v, d + 1), c')
        else decodeKeyValueRest fuel content c d o
      | none => decodeKeyValueRest fuel content c d o

termination_by structural fuel _ _ _ _ => fuel
/-- The tail of `decodeKeyValue` after the array-header check (split out of
the source function so both fall-through paths share it). -/
def decodeKeyValueRest : Nat → List Char → Cursor → Nat → DOpts → Except Err ((List Char × Json × Nat) × Cursor)
  | 0, _, _, _, _ => .error .outOfFuel
  | fuel + 1, content, c, d, o =>
    match parseKeyToken content 0 with
    | .error e => .error e
    | .ok ke =>
      let rest := jsTrim (content.drop ke.2)
      if rest = [] then
        match c.peek with
        | some nl =>
          if nl.depth > d then
            match decodeObjectGo fuel c (d + 1) o [] with
            | .error e => .error e
            | .ok (nested, c') => .ok ((ke.1, Json.obj nested, d + 1), c')
          else .ok ((ke.1, Json.obj [], d + 1), c)
        | none => .ok ((ke.1, Json.obj [], d + 1), c)
      else
        match parsePrimitiveToken rest with
        | .error e => .error e
        | .ok p => .ok ((ke.1, Json.prim p, d + 1), c)

termination_by structural fuel _ _ _ _ => fuel
/-- `decodeArrayFromHeader`: inline values, tabular (nonempty field list), or
list form. -/
def decodeArrayFromHeader : Nat → HeaderInfo → Option (List Char) → Cursor → Nat → DOpts → Except Err (Json × Cursor)
  | 0, _, _, _, _, _ => .error .outOfFuel
  | fuel + 1, h, iv, c, d, o =>
    match iv with
    | some ivs =>
      (decodeInlinePrimitiveArray h ivs o).map
        (fun ps => (Json.arr (ps.map Json.prim), c))
    | none =>
      if (h.fields.getD []).length > 0 then
        match decodeTabularArray fuel h c d o with
        | .error e => .error e
        | .ok (rows, c') => .ok (Json.arr rows, c')
      else
        match decodeListArray fuel h c d o with
        | .error e => .error e
        | .ok (items, c') => .ok (Json.arr items, c')

termination_by structural fuel _ _ _ _ _ => fuel
/-- `decodeListArray`: run the item loop, then the count assertion and the
strict-mode validations. -/
def decodeListArray : Nat → HeaderInfo → Cursor → Nat → DOpts → Except Err (List Json × Cursor)
  | 0, _, _, _, _ => .error .outOfFuel
  | fuel + 1, h, c, d, o =>
    match decodeListGo fuel h c (d + 1) o [] none none with
    | .error e => .error e
    | .ok r =>
      match r with
      | (items, c', sl, el) =>
        match assertExpectedCount items.length h.length o with
        | .error e => .error e
        | .ok _ =>
          match (if o.strict ∧ sl.isSome ∧ el.isSome then
                   validateNoBlankLinesInRange (sl.getD 0) (el.getD 0) c'.blanks o.strict
                 else .ok ()) with
          | .error e => .error e
          | .ok _ =>
            match (if o.strict then validateNoExtraListItems c' (d + 1) else .ok ()) with
            | .error e => .error e
            | .ok _ => .ok (items, c')

termination_by structural fuel _ _ _ _ => fuel
/-- The item loop of `decodeListArray`, guarded by
`items.length < header.length`, tracking the first and last item line for
the blank-line validation. -/
def decodeListGo : Nat → HeaderInfo → Cursor → Nat → DOpts → List Json → Option Nat → Option Nat → Except Err (List Json × Cursor × Option Nat × Option Nat)
  | 0, _, _, _, _, _, _, _ => .error .outOfFuel
  | fuel + 1, h, c, itemDepth, o, items, sl, el =>
    if c.atEnd ∨ ¬((items.length : Int) < h.length) then .ok (items, c, sl, el)
    else
      match c.peek with
      | none => .ok (items, c, sl, el)
      | some line =>
        if line.depth < itemDepth then .ok (items, c, sl, el)
        else if line.depth = itemDepth ∧ ("- ".data).isPrefixOf line.content then
          let sl' := if sl = none then some line.lineNumber else sl
          match decodeListItem fuel c itemDepth h.delimiter o with
          | .error e => .error e
          | .ok (item, c') =>
            let el' :=
              match c'.current with
              | some cl => some cl.lineNumber
              | none => some line.lineNumber
            decodeListGo fuel h c' itemDepth o (items ++ [item]) sl' el'
        else .ok (items, c, sl, el)

termination_by structural fuel _ _ _ _ _ _ _ => fuel
/-- `decodeTabularArray`. -/
def decodeTabularArray : Nat → HeaderInfo → Cursor → Nat → DOpts → Except Err (List Json × Cursor)
  | 0, _, _, _, _ => .error .outOfFuel
  | fuel + 1, h, c, d, o =>
    match decodeTabGo fuel h c (d + 1) o [] none none with
    | .error e => .error e
    | .ok r =>
      match r with
      | (rows, c', sl, el) =>
        match assertExpectedCount rows.length h.length o with
        | .error e => .error e
        | .ok _ =>
          match (if o.strict ∧ sl.isSome ∧ el.isSome then
                   validateNoBlankLinesInRange (sl.getD 0) (el.getD 0) c'.blanks o.strict
                 else .ok ()) with
          | .error e => .error e
          | .ok _ =>
            match (if o.strict then validateNoExtraTabularRows c' (d + 1) else .ok ()) with
            | .error e => .error e
            | .ok _ => .ok (rows, c')

/-- The row loop of `decodeTabularArray`, guarded by
`rows.length < header.length`: split each row by the delimiter, assert the
field count, and build the row object. -/
def decodeTabGo : Nat → HeaderInfo → Cursor → Nat → DOpts → List Json → Option Nat → Option Nat → Except Err (List Json × Cursor × Option Nat × Option Nat)
  | 0, _, _, _, _, _, _, _ => .error .outOfFuel
  | fuel + 1, h, c, rowDepth, o, rows, sl, el =>
    if c.atEnd ∨ ¬((rows.length : Int) < h.length) then .ok (rows, c, sl, el)
    else
      match c.peek with
      | none => .ok (rows, c, sl, el)
      | some line =>
        if line.depth < rowDepth then .ok (rows, c, sl, el)
        else if line.depth = rowDepth then
          let sl' := if sl = none then some line.lineNumber else sl
          let values := parseDelimitedValues line.content h.delimiter
          match assertExpectedCount values.length ((h.fields.getD []).length : Int) o with
          | .error e => .error e
          | .ok _ =>
            match mapRowValuesToPrimitives values with
            | .error e => .error e
            | .ok prims =>
              decodeTabGo fuel h c.advance rowDepth o
                (rows ++ [Json.obj (buildRowObj (h.fields.getD []) prims)]) sl' (some line.lineNumber)
        else .ok (rows, c, sl, el)

termination_by structural fuel _ _ _ _ _ _ _ => fuel
/-- `decodeListItem`: consume the `- ` line; an array header after the
hyphen, an object first field, or a primitive. -/
def decodeListItem : Nat → Cursor → Nat → Delim → DOpts → Except Err (Json × Cursor)
  | 0, _, _, _, _ => .error .outOfFuel
  | fuel + 1, c, d, _delim, o =>
    match c.peek with
    | none => .error .expectedItem
    | some line =>
      let c1 := c.advance
      let afterHyphen := line.content.drop 2
      match (if isArrayHeaderAfterHyphen afterHyphen then
               parseArrayHeaderLine afterHyphen Delim.comma
             else .ok none) with
      | .error e => .error e
      | .ok (some hi) => decodeArrayFromHeader fuel hi.1 hi.2 c1 d o
      | .ok none =>
        if isObjectFirstFieldAfterHyphen afterHyphen then
          match decodeObjectFromListItem fuel line c1 d o with
          | .error e => .error e
          | .ok (entries, c') => .ok (Json.obj entries, c')
        else (parsePrimitiveToken afterHyphen).map (fun p => (Json.prim p, c1))

termination_by structural fuel _ _ _ _ => fuel
/-- `decodeObjectFromListItem`: the first field comes from the content after
the hyphen; subsequent fields are read at the follow depth. -/
def decodeObjectFromListItem : Nat → PLine → Cursor → Nat → DOpts → Except Err (List (List Char × Json) × Cursor)
  | 0, _, _, _, _ => .error .outOfFuel
  | fuel + 1, firstLine, c, d, o =>
    let afterHyphen := firstLine.content.drop 2
    match decodeKeyValue fuel afterHyphen c d o with
    | .error e => .error e
    | .ok (kvf, c') =>
      decodeObjFieldsGo fuel c' kvf.2.2 o [(kvf.1, kvf.2.1)]

termination_by structural fuel _ _ _ _ => fuel
/-- The subsequent-fields loop of `decodeObjectFromListItem`: fields at the
follow depth that do not start a new list item. -/
def decodeObjFieldsGo : Nat → Cursor → Nat → DOpts → List (List Char × Json) → Except Err (List (List Char × Json) × Cursor)
  | 0, _, _, _, _ => .error .outOfFuel
  | fuel + 1, c, fd, o, acc =>
    if c.atEnd then .ok (acc, c)
    else
      match c.peek with
      | none => .ok (acc, c)
      | some line =>
        if line.depth < fd then .ok (acc, c)
        else if line.depth = fd ∧ ¬(("- ".data).isPrefixOf line.content) then
          match decodeKeyValuePair fuel line c fd o with
          | .error e => .error e
          | .ok (kv, c') => decodeObjFieldsGo fuel c' fd o (jsAssign acc kv.1 kv.2)
        else .ok (acc, c)

termination_by structural fuel _ _ _ _ => fuel
end

/-- `decodeObject` proper: the loop starting from the empty object. -/
def decodeObject (fuel : Nat) (c : Cursor) (d : Nat) (o : DOpts) : Except Err (List (List Char × Json) × Cursor) :=
  decodeObjectGo fuel c d o []

/-- Top-level `decode` (shared/validation.ts index): scan, reject empty
scans, and decode from the line cursor. -/
def decode (fuel : Nat) (input : List Char) (o : DOpts) : Except DErr Json :=
  match toParsedLines input o.indent o.strict with
  | .error e => .error (.scan e)
  | .ok lb =>
    if lb.1.length = 0 then .error .emptyInput
    else
      match decodeValueFromLines fuel ⟨lb.1, 0, lb.2⟩ o with
      | .error e => .error (.inner e)
      | .ok vc => .ok vc.1

-- #endregion

-- #region Claim-facing definitions

/-- The numeric-like predicate exactly as claim C2 words it: the decimal
regex must match and the token must not be a leading-zero integer. -/
def claimNumericLike (t : List Char) : Bool :=
  matchesDecimalRegex t && !matchesLeadingZeroInt t

/-- A non-negative decimal integer in the sense of claim C3: nonempty and
consisting of decimal digits only. -/
def decimalDigitsOnly (s : List Char) : Bool :=
  !s.isEmpty && s.all Char.isDigit

/-- The number of leading spaces of a raw line (the scanner's `indent`). -/
def lineIndent (raw : List Char) : Nat :=
  (raw.takeWhile (fun c => c = ' ')).length

/-- The content of a raw line after its leading spaces. -/
def lineContent (raw : List Char) : List Char :=
  raw.drop (lineIndent raw)

/-- Whether the leading whitespace region (maximal space/tab prefix) of a raw
line contains a tab. -/
def tabInLeadingWs (raw : List Char) : Bool :=
  (raw.takeWhile (fun c => c = ' ' ∨ c = '\t')).contains '\t'

/-- Well-escapedness of an encoded string: backslash, double quote, newline,
carriage return and tab occur only as (the payload of) a two-character escape
`\\`, `\"`, `\n`, `\r`, `\t`. -/
def escOk : List Char → Bool
  | [] => true
  | c :: rest =>
    if c = '\\' then
      match rest with
      | [] => false
      | e :: rest' =>
        (e == '\\' || e == '"' || e == 'n' || e == 'r' || e == 't') && escOk rest'
    else !(c == '"' || c == '\n' || c == '\r' || c == '\t') && escOk rest

/-- The quote state after scanning a string with the splitting state machine
of §4.5 (escape pairs are consumed atomically inside quotes, `"` flips). -/
def scanQState (dc : Char) : List Char → Bool → Bool
  | [], q => q
  | c :: rest, q =>
    if c = '\\' ∧ rest ≠ [] ∧ q = true then scanQState dc (rest.drop 1) q
    else if c = '"' then scanQState dc rest (!q)
    else scanQState dc rest q
termination_by s _ => s.length
decreasing_by
  · simp [List.length_drop]; omega
  · simp
  · simp

/-- The raw (untrimmed) segments of quote-aware splitting, as the spec words
it: a nonempty list of segments separated by top-level delimiters, `\X`
consumed as a pair inside quotes, `"` flipping the quote state. -/
def specSplitRaw (dc : Char) : List Char → Bool → List (List Char)
  | [], _ => [[]]
  | c :: rest, q =>
    if c = '\\' ∧ rest ≠ [] ∧ q = true then
      match specSplitRaw dc (rest.drop 1) q with
      | [] => [c :: rest.take 1]
      | h :: t => (c :: (rest.take 1 ++ h)) :: t
    else if c = '"' then
      match specSplitRaw dc rest (!q) with
      | [] => [[c]]
      | h :: t => (c :: h) :: t
    else if c = dc ∧ q = false then [] :: specSplitRaw dc rest q
    else
      match specSplitRaw dc rest q with
      | [] => [[c]]
      | h :: t => (c :: h) :: t
termination_by s _ => s.length
decreasing_by
  · simp [List.length_drop]; omega
  · simp
  · simp
  · simp

/-- `parseDelimitedValues` as the spec words it: empty input gives the empty
list, otherwise the raw segments of the quote-aware split, each trimmed. -/
def specParseDelimitedValues (s : List Char) (d : Delim) : List (List Char) :=
  if s = [] then [] else (specSplitRaw d.char s false).map jsTrim

-- #endregion

-- #region Claim C1

/-- Claim C1 (round-trip law): FAILS on the code.  The encoder's
`isNumericLike` regex does not match `.5`, so `isSafeUnquoted` lets the
string value `".5"` through unquoted and the (spec-modelled) root dispatch
emits the bare line `.5`; but the decoder's `Number()`-based
`isNumericLiteral` accepts `.5`, so decoding returns the number 0.5 (here
`5·10⁻¹`), not the string `".5"`.  This contradicts the spec's stated intent
that the encode-time predicate "flags [numeric-looking strings] to force
quoting so that decode reproduces the source string". -/
theorem c1_roundtrip_failing_input :
    encodeRootString (".5".data) = ".5".data
    ∧ isSafeUnquoted (".5".data) ',' = true
    ∧ decode 9 (".5".data) defaultDOpts = .ok (.prim (.num 5 (-1)))
    ∧ JPrim.num 5 (-1) ≠ JPrim.str (".5".data) := by
  refine ⟨rfl, rfl, rfl, ?_⟩
  decide

-- #endregion

-- #region Claim C2 (counterexample)

/-- Claim C2 counterexample: the token `.5` does not match the claimed
numeric-like regex `-?\d+(\.\d+)?(e[+-]?\d+)?` (so the claim predicts the
bare string `".5"`), yet `parsePrimitiveToken` returns it as a parsed double
because `Number(".5")` is finite. -/
theorem c2_token_counterexample :
    claimNumericLike (".5".data) = false
    ∧ matchesDecimalRegex (".5".data) = false
    ∧ parsePrimitiveToken (".5".data) = .ok (.num 5 (-1)) := by
  refine ⟨rfl, rfl, rfl⟩

-- #endregion

-- #region Claim C3 (counterexample)

/-- Claim C3 counterexample: the bracket remainder `-2` is not a non-negative
decimal integer, yet `parseArrayHeaderLine` does not reject the line
`a[-2]:` — `Number.parseInt` accepts the sign and the header is produced
with declared length `-2`. -/
theorem c3_header_counterexample :
    decimalDigitsOnly ("-2".data) = false
    ∧ parseBracketSegment ("-2".data) Delim.comma = some (-2, Delim.comma, false)
    ∧ parseArrayHeaderLine ("a[-2]:".data) Delim.comma =
        .ok (some (⟨some ("a".data), -2, Delim.comma, none, false⟩, none)) := by
  refine ⟨rfl, rfl, rfl⟩

-- #endregion

-- #region Claim C4 (counterexample)

/-- Claim C4 counterexample: the second line of `"a: 1\n\t"` is the single
tab `"\t"`, whose leading whitespace region contains a tab; the claim says
strict mode rejects any such line, but the scanner classifies the line as
blank before the strict checks run, and strict decoding succeeds. -/
theorem c4_strict_counterexample :
    jsSplit '\n' ("a: 1\n\t".data) = ["a: 1".data, "\t".data]
    ∧ tabInLeadingWs ("\t".data) = true
    ∧ decode 9 ("a: 1\n\t".data) ⟨2, true⟩ = .ok (.obj [("a".data, .prim (.num 1 0))]) := by
  refine ⟨rfl, rfl, rfl⟩

-- #endregion

-- #region Claim C5 (counterexample)

/-- Claim C5 counterexample: the single line `hi "a:b"` contains no
top-level (outside-quotes) colon and is not a root array header, so the
claim predicts the primitive-token parse (the bare string `hi "a:b"`); but
`isKeyValueLine` tests `content.includes(':')` — any colon at all — so the
decoder parses the line as an object instead. -/
theorem c5_entry_counterexample :
    findUnquotedChar ("hi \"a:b\"".data) ':' = none
    ∧ isArrayHeaderAfterHyphen ("hi \"a:b\"".data) = false
    ∧ decode 9 ("hi \"a:b\"".data) defaultDOpts =
        .ok (.obj [("hi \"a".data, .prim (.str "b\"".data))])
    ∧ decode 9 ("hi \"a:b\"".data) defaultDOpts ≠
        .ok (.prim (.str ("hi \"a:b\"".data))) := by
  refine ⟨rfl, rfl, rfl, ?_⟩
  intro h
  rw [show decode 9 ("hi \"a:b\"".data) defaultDOpts =
      .ok (.obj [("hi \"a".data, .prim (.str "b\"".data))]) from rfl] at h
  injection h with h1
  exact Json.noConfusion h1

-- #endregion

-- #region Claim C8 (counterexample)

/-- Claim C8 counterexample: on the non-blank input `"\tx"` the strict scan
throws before producing any parsed line, so "the scan produces at least one
parsed line" fails as universally stated (the EmptyInput branch is indeed
not taken — the error is a scan error). -/
theorem c8_empty_counterexample :
    ("\tx".data).all jsWhitespace = false
    ∧ toParsedLines ("\tx".data) 2 true = .error (.tabInIndent 1)
    ∧ decode 9 ("\tx".data) ⟨2, true⟩ = .error (.scan (.tabInIndent 1)) := by
  refine ⟨rfl, rfl, rfl⟩

-- #endregion

-- #region Claim C9 (counterexample)

/-- Claim C9 counterexample: a declared length may be negative (`a[-2]:`
parses with length `-2`), and then the returned empty array's length 0
exceeds the declared length, refuting "the returned array's length never
exceeds the declared length" read over the header's actual `length` value. -/
theorem c9_bound_counterexample :
    decodeListArray 3 ⟨some ("a".data), -2, Delim.comma, none, false⟩ ⟨[], 1, []⟩ 0 ⟨2, false⟩ =
      .ok ([], ⟨[], 1, []⟩)
    ∧ ¬(((([] : List Json)).length : Int) ≤ -2)
    ∧ decode 9 ("a[-2]:".data) ⟨2, false⟩ = .ok (.obj [("a".data, .arr [])]) := by
  refine ⟨rfl, by decide, rfl⟩

-- #endregion

-- #region Claim C6

/-- Claim C6: inside a quoted string, exactly the five escapes `\\`, `\"`,
`\n`, `\r`, `\t` are accepted, mapping to backslash, double quote, newline,
carriage return and tab; any other `\x` — and a lone backslash at the end of
the input — raises the invalid-escape error. -/
theorem c6_escape_exact :
    (∀ rest, unescapeString ('\\' :: '\\' :: rest) = (unescapeString rest).map (fun r => '\\' :: r))
    ∧ (∀ rest, unescapeString ('\\' :: '"' :: rest) = (unescapeString rest).map (fun r => '"' :: r))
    ∧ (∀ rest, unescapeString ('\\' :: 'n' :: rest) = (unescapeString rest).map (fun r => '\n' :: r))
    ∧ (∀ rest, unescapeString ('\\' :: 'r' :: rest) = (unescapeString rest).map (fun r => '\r' :: r))
    ∧ (∀ rest, unescapeString ('\\' :: 't' :: rest) = (unescapeString rest).map (fun r => '\t' :: r))
    ∧ (∀ c rest, c ≠ '\\' → c ≠ '"' → c ≠ 'n' → c ≠ 'r' → c ≠ 't' →
        unescapeString ('\\' :: c :: rest) = .error .invalidEscape)
    ∧ unescapeString ['\\'] = .error .invalidEscape := by
  refine ⟨fun rest => rfl, fun rest => rfl, fun rest => rfl, fun rest => rfl, fun rest => rfl,
    ?_, rfl⟩
  intro c rest h1 h2 h3 h4 h5
  rw [unescapeString.eq_def]
  simp [if_neg h3, if_neg h5, if_neg h4, if_neg h1, if_neg h2]

/-- Witness for `c6_escape_exact` at the concrete escape `\x`. -/
theorem c6_escape_witness :
    unescapeString ['\\', 'x'] = .error .invalidEscape :=
  c6_escape_exact.2.2.2.2.2.1 'x' [] (by decide) (by decide) (by decide) (by decide) (by decide)

-- #endregion

-- #region Claim C10

/-- Per-character escaping; `escapeString` is its string-wise extension (see
`escapeString_eq_escChar`). -/
def escChar (c : Char) : List Char :=
  if c = '\\' then ['\\', '\\']
  else if c = '"' then ['\\', '"']
  else if c = '\n' then ['\\', 'n']
  else if c = '\r' then ['\\', 'r']
  else if c = '\t' then ['\\', 't']
  else [c]

theorem jsReplaceChar_cons (c : Char) (r : List Char) (a : Char) (s : List Char) :
    jsReplaceChar c r (a :: s) = (if a = c then r else [a]) ++ jsReplaceChar c r s := rfl

theorem jsReplaceChar_append (c : Char) (r : List Char) (x y : List Char) :
    jsReplaceChar c r (x ++ y) = jsReplaceChar c r x ++ jsReplaceChar c r y := by
  induction x with
  | nil => rfl
  | cons a x ih => simp [jsReplaceChar_cons, ih]

theorem escapeString_cons (a : Char) (s : List Char) :
    escapeString (a :: s) = escChar a ++ escapeString s := by
  by_cases h1 : a = '\\'
  · subst h1; rfl
  · by_cases h2 : a = '"'
    · subst h2; rfl
    · by_cases h3 : a = '\n'
      · subst h3; rfl
      · by_cases h4 : a = '\r'
        · subst h4; rfl
        · by_cases h5 : a = '\t'
          · subst h5; rfl
          · simp only [escapeString, jsReplaceChar_cons, if_neg h1, if_neg h2, if_neg h3,
              if_neg h4, if_neg h5, List.singleton_append, escChar]

/-- Claim C10: unescaping inverts escaping on every string, and the escaped
form never contains an unescaped backslash, double quote, newline, carriage
return or tab (`escOk`). -/
theorem c10_escape_roundtrip (s : List Char) :
    unescapeString (escapeString s) = .ok s ∧ escOk (escapeString s) = true := by
  induction s with
  | nil => exact ⟨rfl, rfl⟩
  | cons a s ih =>
    obtain ⟨ih1, ih2⟩ := ih
    rw [escapeString_cons]
    by_cases h1 : a = '\\'
    · subst h1; exact ⟨by simp [escChar, unescapeString, ih1, Except.map],
        by simp [escChar, escOk, ih2]⟩
    by_cases h2 : a = '"'
    · subst h2; exact ⟨by simp [escChar, unescapeString, ih1, Except.map],
        by simp [escChar, escOk, ih2]⟩
    by_cases h3 : a = '\n'
    · subst h3; exact ⟨by simp [escChar, unescapeString, ih1, Except.map],
        by simp [escChar, escOk, ih2]⟩
    by_cases h4 : a = '\r'
    · subst h4; exact ⟨by simp [escChar, unescapeString, ih1, Except.map],
        by simp [escChar, escOk, ih2]⟩
    by_cases h5 : a = '\t'
    · subst h5; exact ⟨by simp [escChar, unescapeString, ih1, Except.map],
        by simp [escChar, escOk, ih2]⟩
    have hch : escChar a = [a] := by
      simp [escChar, if_neg h1, if_neg h2, if_neg h3, if_neg h4, if_neg h5]
    rw [hch]
    constructor
    · show unescapeString (a :: escapeString s) = .ok (a :: s)
      rw [unescapeString.eq_def]
      simp only [if_neg h1, ih1]
      rfl
    · show escOk (a :: escapeString s) = true
      rw [escOk.eq_def]
      simp only [if_neg h1, ih2]
      simp [beq_iff_eq, h2, h3, h4, h5]

-- #endregion

-- #region Claim C2 (amended)

/-- Claim C2 as amended: for every trimmed non-empty token not starting with
a double quote and not a boolean/null literal, the token is returned as a
parsed double iff `isNumericLiteral` holds — no leading-zero shape and a
finite JS `Number()` value (the signed decimal grammar, which also admits
`.5`, `5.`, `+5`, minus overflow) — and as the bare string itself otherwise;
the empty token yields the empty string. -/
theorem c2_token_amended (t : List Char) (h1 : jsTrim t = t) (h2 : t ≠ [])
    (h3 : t.head? ≠ some '"') (h4 : isBooleanOrNullLiteral t = false) :
    ((∃ m e, parsePrimitiveToken t = .ok (.num m e)) ↔ isNumericLiteral t = true)
    ∧ (isNumericLiteral t = false → parsePrimitiveToken t = .ok (.str t))
    ∧ (isNumericLiteral t = true ↔
        (¬(t.length > 1 ∧ t[0]? = some '0' ∧ t[1]? ≠ some '.')
          ∧ ∃ m e, jsNumber t = .finite m e ∧ jsFiniteLt m e = true))
    ∧ parsePrimitiveToken [] = .ok (.str []) := by
  have key : parsePrimitiveToken t =
      if isNumericLiteral t then .ok (.num (numValueOf t).1 (numValueOf t).2)
      else .ok (.str t) := by
    simp only [parsePrimitiveToken, h1, if_neg h2, if_neg h3, h4, Bool.false_eq_true,
      if_false]
  refine ⟨?_, ?_, ?_, rfl⟩
  · constructor
    · rintro ⟨m, e, hm⟩
      by_cases hn : isNumericLiteral t = true
      · exact hn
      · rw [key, if_neg hn] at hm
        exact absurd hm (by simp)
    · intro hn
      rw [key, if_pos hn]
      exact ⟨_, _, rfl⟩
  · intro hn
    rw [key, if_neg (by simp [hn])]
  · rw [isNumericLiteral.eq_def, if_neg h2]
    by_cases hC : t.length > 1 ∧ t[0]? = some '0' ∧ t[1]? ≠ some '.'
    · simp only [if_pos hC]
      constructor
      · intro h; exact absurd h (by simp)
      · rintro ⟨hnot, _⟩; exact absurd hC hnot
    · simp only [if_neg hC]
      cases hj : jsNumber t with
      | nan => simp [hC]
      | infinite => simp [hC]
      | finite m e =>
        constructor
        · intro h; exact ⟨hC, m, e, rfl, h⟩
        · rintro ⟨-, m', e', hm, hf⟩
          injection hm with hm1 hm2
          subst hm1; subst hm2
          exact hf

-- #endregion

-- #region Claim C2 (witness)

/-- Witness for `c2_token_amended` at the token `12`. -/
theorem c2_token_witness :
    ((∃ m e, parsePrimitiveToken ("12".data) = .ok (.num m e)) ↔
      isNumericLiteral ("12".data) = true)
    ∧ (isNumericLiteral ("x5".data) = false → parsePrimitiveToken ("x5".data) = .ok (.str ("x5".data))) :=
  ⟨(c2_token_amended ("12".data) (by decide) (by decide) (by decide) (by decide)).1,
   (c2_token_amended ("x5".data) (by decide) (by decide) (by decide) (by decide)).2.1⟩

-- #endregion

-- #region Claim C3 (amended)

theorem digit_not_ws (c : Char) (h : c.isDigit = true) : jsWhitespace c = false := by
  simp only [Char.isDigit, decide_eq_true_eq, Bool.and_eq_true] at h
  cases hw : jsWhitespace c with
  | false => rfl
  | true =>
    exfalso
    have hmem := List.mem_of_elem_eq_true hw
    simp only [List.mem_cons, List.not_mem_nil, or_false] at hmem
    have h48 : 48 ≤ c.toNat := h.1
    have h57 : c.toNat ≤ 57 := h.2
    omega

/-- Claim C3 as amended: the bracket remainder is accepted exactly when
`Number.parseInt` finds a digit prefix (after optional whitespace and an
optional sign), and the declared length is parseInt's value — so trailing
garbage is ignored and negative lengths are accepted; a pure non-negative
decimal remainder yields exactly that integer with the default delimiter and
no length marker. -/
theorem c3_header_amended (seg : List Char) (dflt : Delim) :
    (parseBracketSegment seg dflt = none ↔
      jsParseInt10 (bracketStripDelim (bracketStripMarker seg).1 dflt).1 = none)
    ∧ (∀ n d m, parseBracketSegment seg dflt = some (n, d, m) →
        jsParseInt10 (bracketStripDelim (bracketStripMarker seg).1 dflt).1 = some n
        ∧ d = (bracketStripDelim (bracketStripMarker seg).1 dflt).2
        ∧ m = (bracketStripMarker seg).2)
    ∧ (decimalDigitsOnly seg = true →
        parseBracketSegment seg dflt = some ((digitsVal seg : Int), dflt, false)
        ∧ 0 ≤ ((digitsVal seg : Int))) := by
  refine ⟨?_, ?_, ?_⟩
  · cases h : jsParseInt10 (bracketStripDelim (bracketStripMarker seg).1 dflt).1 with
    | none => simp [parseBracketSegment, h]
    | some n => simp [parseBracketSegment, h]
  · intro n d m hpb
    cases h : jsParseInt10 (bracketStripDelim (bracketStripMarker seg).1 dflt).1 with
    | none => simp [parseBracketSegment, h] at hpb
    | some n' =>
      simp only [parseBracketSegment, h, Option.some.injEq, Prod.mk.injEq] at hpb
      obtain ⟨rfl, rfl, rfl⟩ := hpb
      exact ⟨rfl, rfl, rfl⟩
  · intro hd
    have hne : seg ≠ [] := by
      intro h; subst h; simp [decimalDigitsOnly] at hd
    have hall : ∀ c ∈ seg, c.isDigit = true := by
      have h2 := (Bool.and_eq_true _ _).mp hd |>.2
      exact fun c hc => List.all_eq_true.mp h2 c hc
    have hmark : bracketStripMarker seg = (seg, false) := by
      unfold bracketStripMarker
      rw [if_neg]
      intro hh
      have hm : '#' ∈ seg := by
        cases seg with
        | nil => simp at hh
        | cons c t =>
          simp only [List.head?_cons, Option.some.injEq] at hh
          exact hh ▸ List.mem_cons_self c t
      exact absurd (hall '#' hm) (by decide)
    have hdel : bracketStripDelim seg dflt = (seg, dflt) := by
      unfold bracketStripDelim
      rw [if_neg, if_neg]
      · intro hh
        exact absurd (hall '|' (List.mem_of_mem_getLast? hh)) (by decide)
      · intro hh
        exact absurd (hall '\t' (List.mem_of_mem_getLast? hh)) (by decide)
    have hjs : jsParseInt10 seg = some ((digitsVal seg : Int)) := by
      cases seg with
      | nil => exact absurd rfl hne
      | cons c t =>
        have hc : c.isDigit = true := hall c (List.mem_cons_self c t)
        have hcp : c ≠ '+' := by intro h; rw [h] at hc; exact absurd hc (by decide)
        have hcm : c ≠ '-' := by intro h; rw [h] at hc; exact absurd hc (by decide)
        have htw : (c :: t).takeWhile Char.isDigit = c :: t :=
          List.takeWhile_eq_self_iff.mpr (fun x hx => hall x hx)
        have hdw : (c :: t).dropWhile (fun a => jsWhitespace a) = c :: t := by
          rw [List.dropWhile_cons, if_neg]
          simp [digit_not_ws c (hall c (List.mem_cons_self c t))]
        simp only [jsParseInt10]
        rw [hdw]
        have hp : ¬((c :: t).head? = some '+') := by
          simp only [List.head?_cons, Option.some.injEq]; exact hcp
        have hm2 : ¬((c :: t).head? = some '-') := by
          simp only [List.head?_cons, Option.some.injEq]; exact hcm
        rw [if_neg hp, if_neg hm2]
        simp [htw]
    constructor
    · simp only [parseBracketSegment, hmark, hdel, hjs]
    · exact Int.natCast_nonneg _

-- #endregion

-- #region Claim C3 (witness)

/-- Witness for `c3_header_amended` at the digits-only segment `3`. -/
theorem c3_header_witness :
    parseBracketSegment ("3".data) Delim.comma = some (3, Delim.comma, false)
    ∧ (0 : Int) ≤ 3 :=
  (c3_header_amended ("3".data) Delim.comma).2.2 (by decide)

-- #endregion

-- #region Scanner lemmas (for claims C4 and C8)

theorem dropWhile_eq_drop_length_takeWhile (p : Char → Bool) (l : List Char) :
    l.dropWhile p = l.drop (l.takeWhile p).length := by
  induction l with
  | nil => rfl
  | cons c t ih =>
    by_cases h : p c
    · rw [List.dropWhile_cons, if_pos h, List.takeWhile_cons, if_pos h]
      simpa using ih
    · rw [List.dropWhile_cons, if_neg h, List.takeWhile_cons, if_neg h]
      rfl

theorem take_length_takeWhile (p : Char → Bool) (l : List Char) :
    l.take (l.takeWhile p).length = l.takeWhile p :=
  ((List.prefix_iff_eq_take).mp (List.takeWhile_prefix p)).symm

theorem jsTrimStart_eq_nil_iff (s : List Char) :
    jsTrimStart s = [] ↔ s.all jsWhitespace = true := by
  simp [jsTrimStart, List.dropWhile_eq_nil_iff, List.all_eq_true]

theorem jsTrimEnd_eq_nil_iff (s : List Char) :
    jsTrimEnd s = [] ↔ s.all jsWhitespace = true := by
  rw [jsTrimEnd, List.reverse_eq_nil_iff, List.dropWhile_eq_nil_iff]
  simp [List.all_eq_true]

theorem jsTrim_eq_nil_iff (s : List Char) :
    jsTrim s = [] ↔ s.all jsWhitespace = true := by
  rw [jsTrim, jsTrimEnd_eq_nil_iff]
  constructor
  · intro h
    rw [List.all_eq_true] at h ⊢
    intro x hx
    rw [← List.takeWhile_append_dropWhile (p := fun c => jsWhitespace c) (l := s)] at hx
    rcases List.mem_append.mp hx with h1 | h2
    · exact List.mem_takeWhile_imp h1
    · exact h x h2
  · intro h
    rw [List.all_eq_true] at h ⊢
    intro x hx
    refine h x ?_
    rw [jsTrimStart, dropWhile_eq_drop_length_takeWhile] at hx
    exact List.drop_subset _ s hx

theorem jsSplit_ne_nil (sep : Char) (s : List Char) : jsSplit sep s ≠ [] := by
  cases s with
  | nil => simp [jsSplit]
  | cons c t =>
    rw [jsSplit.eq_def]
    by_cases h : c = sep
    · simp [if_pos h]
    · simp only [if_neg h]
      cases jsSplit sep t <;> simp

theorem mem_of_mem_jsSplit (sep : Char) (s : List Char) :
    ∀ l ∈ jsSplit sep s, ∀ c ∈ l, c ∈ s := by
  induction s with
  | nil =>
    intro l hl c hc
    simp [jsSplit] at hl
    subst hl
    simp at hc
  | cons a t ih =>
    intro l hl c hc
    rw [jsSplit.eq_def] at hl
    by_cases h : a = sep
    · simp only [if_pos h] at hl
      rcases List.mem_cons.mp hl with rfl | hl2
      · simp at hc
      · exact List.mem_cons_of_mem a (ih l hl2 c hc)
    · simp only [if_neg h] at hl
      cases hsp : jsSplit sep t with
      | nil => exact absurd hsp (jsSplit_ne_nil sep t)
      | cons h0 t0 =>
        rw [hsp] at hl
        rcases List.mem_cons.mp hl with rfl | hl2
        · rcases List.mem_cons.mp hc with rfl | hc2
          · exact List.mem_cons_self _ _
          · exact List.mem_cons_of_mem a (ih h0 (hsp ▸ List.mem_cons_self h0 t0) c hc2)
        · exact List.mem_cons_of_mem a (ih l (hsp ▸ List.mem_cons_of_mem h0 hl2) c hc)

theorem exists_jsSplit_line_of_mem (sep : Char) (s : List Char) (c : Char)
    (hc : c ∈ s) (hne : c ≠ sep) : ∃ l ∈ jsSplit sep s, c ∈ l := by
  induction s with
  | nil => simp at hc
  | cons a t ih =>
    rw [jsSplit.eq_def]
    by_cases h : a = sep
    · simp only [if_pos h]
      rcases List.mem_cons.mp hc with rfl | hc2
      · exact absurd h hne
      · obtain ⟨l, hl, hcl⟩ := ih hc2
        exact ⟨l, List.mem_cons_of_mem _ hl, hcl⟩
    · simp only [if_neg h]
      cases hsp : jsSplit sep t with
      | nil => exact absurd hsp (jsSplit_ne_nil sep t)
      | cons h0 t0 =>
        rcases List.mem_cons.mp hc with rfl | hc2
        · exact ⟨c :: h0, List.mem_cons_self _ _, List.mem_cons_self _ _⟩
        · obtain ⟨l, hl, hcl⟩ := ih hc2
          rw [hsp] at hl
          rcases List.mem_cons.mp hl with rfl | hl2
          · exact ⟨a :: l, List.mem_cons_self _ _, List.mem_cons_of_mem a hcl⟩
          · exact ⟨l, List.mem_cons_of_mem _ hl2, hcl⟩

theorem content_all_imp_raw_all (raw : List Char)
    (h : (lineContent raw).all jsWhitespace = true) : raw.all jsWhitespace = true := by
  rw [List.all_eq_true] at h ⊢
  intro x hx
  rw [← List.takeWhile_append_dropWhile (p := fun c => c = ' ') (l := raw)] at hx
  rcases List.mem_append.mp hx with h1 | h2
  · have := List.mem_takeWhile_imp h1
    simp only [decide_eq_true_eq] at this
    subst this
    rfl
  · refine h x ?_
    rw [lineContent, lineIndent, ← dropWhile_eq_drop_length_takeWhile]
    exact h2

-- #endregion

-- #region Claim C4 (amended)

theorem scanGo_error_of_bad (size : Nat) (ls : List (List Char)) (k : Nat)
    (h : ∃ raw ∈ ls, (lineContent raw).all jsWhitespace = false
      ∧ (tabInLeadingWs raw = true ∨ (0 < lineIndent raw ∧ lineIndent raw % size ≠ 0))) :
    ∃ e, scanGo size true ls k = .error e := by
  induction ls generalizing k with
  | nil => simp at h
  | cons raw rest ih =>
    obtain ⟨w, hw, hwbad⟩ := h
    rw [scanGo.eq_def]
    simp only []
    by_cases hb : jsTrim (raw.drop ((raw.takeWhile (fun c => c = ' ')).length)) = []
    · rw [if_pos hb]
      have hwr : w ∈ rest := by
        rcases List.mem_cons.mp hw with rfl | h2
        · exact absurd ((jsTrim_eq_nil_iff (lineContent w)).mp hb)
            (by rw [hwbad.1]; simp)
        · exact h2
      obtain ⟨e, he⟩ := ih (k + 1) ⟨w, hwr, hwbad⟩
      exact ⟨e, by rw [he]; rfl⟩
    · rw [if_neg hb, if_pos (by trivial)]
      by_cases ht : (raw.take ((raw.takeWhile (fun c => c = ' ' ∨ c = '\t')).length)).contains '\t' = true
      · rw [if_pos ht]
        exact ⟨.tabInIndent k, rfl⟩
      · rw [if_neg ht]
        by_cases hi : (raw.takeWhile (fun c => c = ' ')).length > 0
          ∧ (raw.takeWhile (fun c => c = ' ')).length % size ≠ 0
        · rw [if_pos hi]
          exact ⟨.indentNotMultiple k, rfl⟩
        · rw [if_neg hi]
          have hwr : w ∈ rest := by
            rcases List.mem_cons.mp hw with rfl | h2
            · exfalso
              rcases hwbad.2 with htab | hmul
              · rw [tabInLeadingWs, ← take_length_takeWhile (fun c => c = ' ' ∨ c = '\t') w] at htab
                exact ht htab
              · exact hi hmul
            · exact h2
          obtain ⟨e, he⟩ := ih (k + 1) ⟨w, hwr, hwbad⟩
          exact ⟨e, by rw [he]; rfl⟩

theorem scanGo_false_ok (size : Nat) (ls : List (List Char)) (k : Nat) :
    ∃ res, scanGo size false ls k = .ok res ∧ ∀ l ∈ res.1, l.depth = l.indent / size := by
  induction ls generalizing k with
  | nil => exact ⟨([], []), rfl, by simp⟩
  | cons raw rest ih =>
    obtain ⟨res, hres, hdep⟩ := ih (k + 1)
    rw [scanGo.eq_def]
    simp only []
    by_cases hb : jsTrim (raw.drop ((raw.takeWhile (fun c => c = ' ')).length)) = []
    · rw [if_pos hb]
      exact ⟨(res.1, _ :: res.2), by rw [hres]; rfl, hdep⟩
    · rw [if_neg hb, if_neg (by simp)]
      refine ⟨(⟨raw, _, _, _, k⟩ :: res.1, res.2), by rw [hres]; rfl, ?_⟩
      intro l hl
      rcases List.mem_cons.mp hl with rfl | h2
      · rfl
      · exact hdep l h2

/-- Claim C4 as amended: in strict mode, any line with NON-BLANK content
that has a tab in its leading whitespace region, or whose space indent is
positive and not a multiple of `indentSize`, makes decode reject with a
scanner syntax error (whose kind carries a line number); whitespace-only
lines are recorded as blank and skip both checks.  With `strict = false` the
scan always succeeds and every parsed line's depth is
`floor(indent / indentSize)`. -/
theorem c4_strict_amended (src : List Char) (size fuel : Nat) (_hsize : 0 < size) :
    ((∃ raw ∈ jsSplit '\n' src, (lineContent raw).all jsWhitespace = false
        ∧ (tabInLeadingWs raw = true ∨ (0 < lineIndent raw ∧ lineIndent raw % size ≠ 0))) →
      ∃ e, decode fuel src ⟨size, true⟩ = .error (.scan e))
    ∧ (∃ res, toParsedLines src size false = .ok res ∧ ∀ l ∈ res.1, l.depth = l.indent / size) := by
  constructor
  · intro h
    have hsrc : src.all jsWhitespace = false := by
      obtain ⟨raw, hraw, hcontent, -⟩ := h
      have : ∃ c ∈ lineContent raw, jsWhitespace c = false := by
        by_contra hno
        push_neg at hno
        have hcall : (lineContent raw).all jsWhitespace = true := by
          rw [List.all_eq_true]
          intro x hx
          cases hxw : jsWhitespace x with
          | true => rfl
          | false => exact absurd hxw (hno x hx)
        rw [hcontent] at hcall
        exact absurd hcall (by simp)
      obtain ⟨c, hc, hcw⟩ := this
      have hcraw : c ∈ raw := List.drop_subset _ raw hc
      have hcsrc : c ∈ src := mem_of_mem_jsSplit '\n' src raw hraw c hcraw
      cases hall : src.all jsWhitespace with
      | false => rfl
      | true => exact absurd (List.all_eq_true.mp hall c hcsrc) (by rw [hcw]; simp)
    have htrim : jsTrim src ≠ [] := by
      rw [Ne, jsTrim_eq_nil_iff, hsrc]
      simp
    obtain ⟨e, he⟩ := scanGo_error_of_bad size (jsSplit '\n' src) 1 h
    refine ⟨e, ?_⟩
    rw [decode, toParsedLines, if_neg htrim, he]
  · obtain ⟨res, hres, hdep⟩ := scanGo_false_ok size (jsSplit '\n' src) 1
    by_cases htrim : jsTrim src = []
    · exact ⟨([], []), by rw [toParsedLines, if_pos htrim], by simp⟩
    · exact ⟨res, by rw [toParsedLines, if_neg htrim, hres], hdep⟩

/-- Witness for `c4_strict_amended` on `"a:\n   b: 1"` with `indent = 2`:
line 2 has indent 3, so strict decoding rejects with a scan error. -/
theorem c4_strict_witness :
    ∃ e, decode 5 ("a:\n   b: 1".data) ⟨2, true⟩ = .error (.scan e) :=
  (c4_strict_amended ("a:\n   b: 1".data) 2 5 (by decide)).1 (by decide)

-- #endregion

-- #region Claim C8 (amended)

theorem scanGo_ok_lines_ne_nil (size : Nat) (strict : Bool) (ls : List (List Char)) (k : Nat)
    (h : ∃ raw ∈ ls, raw.all jsWhitespace = false) :
    ∀ res, scanGo size strict ls k = .ok res → res.1 ≠ [] := by
  induction ls generalizing k with
  | nil => simp at h
  | cons raw rest ih =>
    intro res hres
    obtain ⟨w, hw, hwall⟩ := h
    rw [scanGo.eq_def] at hres
    simp only [] at hres
    by_cases hb : jsTrim (raw.drop ((raw.takeWhile (fun c => c = ' ')).length)) = []
    · rw [if_pos hb] at hres
      have hwr : w ∈ rest := by
        rcases List.mem_cons.mp hw with rfl | h2
        · exact absurd (content_all_imp_raw_all w ((jsTrim_eq_nil_iff (lineContent w)).mp hb))
            (by rw [hwall]; simp)
        · exact h2
      cases hrec : scanGo size strict rest (k + 1) with
      | error e => rw [hrec] at hres; exact absurd hres (by simp [Except.map])
      | ok res' =>
        rw [hrec] at hres
        have h1 : res.1 = res'.1 := by
          simp only [Except.map, Except.ok.injEq] at hres
          rw [← hres]
        rw [h1]
        exact ih (k + 1) ⟨w, hwr, hwall⟩ res' hrec
    · rw [if_neg hb] at hres
      cases strict with
      | true =>
        rw [if_pos (by trivial)] at hres
        by_cases ht : (raw.take ((raw.takeWhile (fun c => c = ' ' ∨ c = '\t')).length)).contains '\t' = true
        · rw [if_pos ht] at hres; exact absurd hres (by simp)
        · rw [if_neg ht] at hres
          by_cases hi : (raw.takeWhile (fun c => c = ' ')).length > 0
            ∧ (raw.takeWhile (fun c => c = ' ')).length % size ≠ 0
          · rw [if_pos hi] at hres; exact absurd hres (by simp)
          · rw [if_neg hi] at hres
            cases hrec : scanGo size true rest (k + 1) with
            | error e => rw [hrec] at hres; exact absurd hres (by simp [Except.map])
            | ok res' =>
              rw [hrec] at hres
              simp only [Except.map, Except.ok.injEq] at hres
              rw [← hres]
              simp
      | false =>
        rw [if_neg (by simp)] at hres
        cases hrec : scanGo size false rest (k + 1) with
        | error e => rw [hrec] at hres; exact absurd hres (by simp [Except.map])
        | ok res' =>
          rw [hrec] at hres
          simp only [Except.map, Except.ok.injEq] at hres
          rw [← hres]
          simp

/-- Claim C8 as amended: decode raises EmptyInput iff the input is entirely
whitespace; on input with a non-whitespace character the EmptyInput branch is
never taken, and whenever the scan succeeds it produces at least one parsed
line (in strict mode the scan may instead throw, producing no lines). -/
theorem c8_empty_amended (fuel : Nat) (src : List Char) (o : DOpts) :
    (decode fuel src o = .error .emptyInput ↔ src.all jsWhitespace = true)
    ∧ (src.all jsWhitespace = false →
        ∀ res, toParsedLines src o.indent o.strict = .ok res → res.1 ≠ []) := by
  have hkey : src.all jsWhitespace = false →
      ∀ res, toParsedLines src o.indent o.strict = .ok res → res.1 ≠ [] := by
    intro hall res hres
    have hexists : ∃ raw ∈ jsSplit '\n' src, raw.all jsWhitespace = false := by
      have : ∃ c ∈ src, jsWhitespace c = false := by
        by_contra hno
        push_neg at hno
        have hcall : src.all jsWhitespace = true := by
          rw [List.all_eq_true]
          intro x hx
          cases hxw : jsWhitespace x with
          | true => rfl
          | false => exact absurd hxw (hno x hx)
        rw [hall] at hcall
        exact absurd hcall (by simp)
      obtain ⟨c, hc, hcw⟩ := this
      have hcne : c ≠ '\n' := by
        intro hceq
        rw [hceq] at hcw
        exact absurd hcw (by simp [jsWhitespace])
      obtain ⟨l, hl, hcl⟩ := exists_jsSplit_line_of_mem '\n' src c hc hcne
      refine ⟨l, hl, ?_⟩
      cases hla : l.all jsWhitespace with
      | false => rfl
      | true => exact absurd (List.all_eq_true.mp hla c hcl) (by rw [hcw]; simp)
    have htrim : jsTrim src ≠ [] := by
      rw [Ne, jsTrim_eq_nil_iff, hall]
      simp
    rw [toParsedLines, if_neg htrim] at hres
    exact scanGo_ok_lines_ne_nil o.indent o.strict (jsSplit '\n' src) 1 hexists res hres
  refine ⟨?_, hkey⟩
  constructor
  · intro hdec
    cases hall : src.all jsWhitespace with
    | true => rfl
    | false =>
      exfalso
      rw [decode] at hdec
      cases hscan : toParsedLines src o.indent o.strict with
      | error e => simp only [hscan] at hdec; exact absurd hdec (by simp)
      | ok lb =>
        simp only [hscan] at hdec
        by_cases hlen : lb.1.length = 0
        · exact hkey hall lb hscan (List.length_eq_zero.mp hlen)
        · rw [if_neg hlen] at hdec
          cases hv : decodeValueFromLines fuel ⟨lb.1, 0, lb.2⟩ o with
          | error e => simp only [hv] at hdec; exact absurd hdec (by simp)
          | ok vc => simp only [hv] at hdec; exact absurd hdec (by simp)
  · intro hall
    have htrim : jsTrim src = [] := (jsTrim_eq_nil_iff src).mpr hall
    rw [decode, toParsedLines, if_pos htrim]
    rfl

/-- Witness for `c8_empty_amended`: a whitespace-only input yields
EmptyInput. -/
theorem c8_empty_witness :
    decode 3 (" ".data) ⟨2, true⟩ = .error .emptyInput :=
  (c8_empty_amended 3 (" ".data) ⟨2, true⟩).1.mpr (by decide)

-- #endregion

-- #region Claim C5 (amended)

/-- Claim C5 as amended: for every input whose scan yields exactly one parsed
line, where that line does not pass the root-array-header guard and is not a
key-value line per `isKeyValueLine` (quoted start: closed quote directly
followed by a colon; otherwise: containing a colon anywhere, even inside
quotes), decode returns the primitive-token parse of the line's trimmed
content. -/
theorem c5_entry_amended (fuel : Nat) (src : List Char) (o : DOpts) (l : PLine)
    (bs : List BlankInfo)
    (hscan : toParsedLines src o.indent o.strict = .ok ([l], bs))
    (hhdr : isArrayHeaderAfterHyphen l.content = false)
    (hkv : isKeyValueLine l.content = false) :
    decode (fuel + 1) src o =
      ((parsePrimitiveToken (jsTrim l.content)).map Json.prim).mapError DErr.inner := by
  have hv : decodeValueFromLines (fuel + 1) ⟨[l], 0, bs⟩ o =
      (parsePrimitiveToken (jsTrim l.content)).map
        (fun p => (Json.prim p, (⟨[l], 0, bs⟩ : Cursor))) := by
    simp only [decodeValueFromLines, Cursor.peek, List.getElem?_cons_zero, hhdr,
      Bool.false_eq_true, if_false, List.length_cons, List.length_nil, hkv, and_true,
      if_pos rfl]
    cases hp : parsePrimitiveToken (jsTrim l.content) <;> simp [Except.map]
  rw [decode]
  simp only [hscan]
  rw [if_neg (by simp)]
  rw [hv]
  cases hp : parsePrimitiveToken (jsTrim l.content) <;> simp [Except.map, Except.mapError]

/-- Witness for `c5_entry_amended` on the single-line input `hello`. -/
theorem c5_entry_witness :
    decode 5 ("hello".data) defaultDOpts =
      ((parsePrimitiveToken (jsTrim ("hello".data))).map Json.prim).mapError DErr.inner :=
  c5_entry_amended 4 ("hello".data) defaultDOpts
    ⟨"hello".data, 0, "hello".data, 0, 1⟩ [] rfl rfl rfl

-- #endregion

-- #region Claim C9 (amended)

theorem decodeListGo_length_le (fuel : Nat) :
    ∀ h c dep o items sl el r, decodeListGo fuel h c dep o items sl el = .ok r →
      r.1.length ≤ max items.length h.length.toNat := by
  induction fuel with
  | zero => intro h c dep o items sl el r hr; simp [decodeListGo] at hr
  | succ n ih =>
    intro h c dep o items sl el r hr
    simp only [decodeListGo] at hr
    by_cases hstop : (Cursor.atEnd c = true) ∨ ¬((items.length : Int) < h.length)
    · rw [if_pos hstop] at hr
      injection hr with hr1
      rw [← hr1]
      exact le_max_left _ _
    · rw [if_neg hstop] at hr
      cases hpk : c.peek with
      | none =>
        simp only [hpk] at hr
        injection hr with hr1
        rw [← hr1]
        exact le_max_left _ _
      | some line =>
        simp only [hpk] at hr
        by_cases h1 : line.depth < dep
        · rw [if_pos h1] at hr
          injection hr with hr1
          rw [← hr1]
          exact le_max_left _ _
        · rw [if_neg h1] at hr
          by_cases h2 : line.depth = dep ∧ ("- ".data).isPrefixOf line.content = true
          · rw [if_pos h2] at hr
            cases hli : decodeListItem n c dep h.delimiter o with
            | error e => simp [hli] at hr
            | ok ic =>
              simp only [hli] at hr
              have hrec := ih h ic.2 dep o (items ++ [ic.1]) _ _ r hr
              have hlt : (items.length : Int) < h.length := by
                push_neg at hstop
                exact hstop.2
              have hle : items.length + 1 ≤ h.length.toNat := by omega
              have : r.1.length ≤ max (items.length + 1) h.length.toNat := by
                simpa using hrec
              omega
          · rw [if_neg h2] at hr
            injection hr with hr1
            rw [← hr1]
            exact le_max_left _ _

theorem decodeTabGo_length_le (fuel : Nat) :
    ∀ h c dep o rows sl el r, decodeTabGo fuel h c dep o rows sl el = .ok r →
      r.1.length ≤ max rows.length h.length.toNat := by
  induction fuel with
  | zero => intro h c dep o rows sl el r hr; simp [decodeTabGo] at hr
  | succ n ih =>
    intro h c dep o rows sl el r hr
    simp only [decodeTabGo] at hr
    by_cases hstop : (Cursor.atEnd c = true) ∨ ¬((rows.length : Int) < h.length)
    · rw [if_pos hstop] at hr
      injection hr with hr1
      rw [← hr1]
      exact le_max_left _ _
    · rw [if_neg hstop] at hr
      cases hpk : c.peek with
      | none =>
        simp only [hpk] at hr
        injection hr with hr1
        rw [← hr1]
        exact le_max_left _ _
      | some line =>
        simp only [hpk] at hr
        by_cases h1 : line.depth < dep
        · rw [if_pos h1] at hr
          injection hr with hr1
          rw [← hr1]
          exact le_max_left _ _
        · rw [if_neg h1] at hr
          by_cases h2 : line.depth = dep
          · rw [if_pos h2] at hr
            cases ha : assertExpectedCount (parseDelimitedValues line.content h.delimiter).length
                ((h.fields.getD []).length : Int) o with
            | error e => simp [ha] at hr
            | ok u =>
              simp only [ha] at hr
              cases hm : mapRowValuesToPrimitives (parseDelimitedValues line.content h.delimiter) with
              | error e => simp [hm] at hr
              | ok prims =>
                simp only [hm] at hr
                have hrec := ih h c.advance dep o
                  (rows ++ [Json.obj (buildRowObj (h.fields.getD []) prims)]) _ _ r hr
                have hlt : (rows.length : Int) < h.length := by
                  push_neg at hstop
                  exact hstop.2
                have hle : rows.length + 1 ≤ h.length.toNat := by omega
                have : r.1.length ≤ max (rows.length + 1) h.length.toNat := by
                  simpa using hrec
                omega
          · rw [if_neg h2] at hr
            injection hr with hr1
            rw [← hr1]
            exact le_max_left _ _

/-- Claim C9 as amended: whenever the list-array or tabular-array decoder
returns (in either strictness mode), the returned array's length never
exceeds `max(header.length, 0)` — i.e. it never exceeds the declared length
whenever that length is non-negative (a negative parsed length yields an
empty array). -/
theorem c9_bound_amended :
    (∀ fuel h c d o items c2, decodeListArray fuel h c d o = .ok (items, c2) →
      items.length ≤ h.length.toNat)
    ∧ (∀ fuel h c d o rows c2, decodeTabularArray fuel h c d o = .ok (rows, c2) →
      rows.length ≤ h.length.toNat) := by
  constructor
  · intro fuel h c d o items c2 hr
    cases fuel with
    | zero => simp [decodeListArray] at hr
    | succ n =>
      simp only [decodeListArray] at hr
      cases hgo : decodeListGo n h c (d + 1) o [] none none with
      | error e => simp [hgo] at hr
      | ok r =>
        obtain ⟨items', c', sl, el⟩ := r
        simp only [hgo] at hr
        cases ha : assertExpectedCount items'.length h.length o with
        | error e => simp [ha] at hr
        | ok u =>
          simp only [ha] at hr
          cases hb : (if o.strict ∧ sl.isSome ∧ el.isSome then
              validateNoBlankLinesInRange (sl.getD 0) (el.getD 0) c'.blanks o.strict
            else .ok ()) with
          | error e => simp [hb] at hr
          | ok u2 =>
            simp only [hb] at hr
            cases hc2 : (if o.strict then validateNoExtraListItems c' (d + 1) else .ok ()) with
            | error e => simp [hc2] at hr
            | ok u3 =>
              simp only [hc2, Except.ok.injEq, Prod.mk.injEq] at hr
              have hlen := decodeListGo_length_le n h c (d + 1) o [] none none
                (items', c', sl, el) hgo
              rw [← hr.1]
              simpa using hlen
  · intro fuel h c d o rows c2 hr
    cases fuel with
    | zero => simp [decodeTabularArray] at hr
    | succ n =>
      simp only [decodeTabularArray] at hr
      cases hgo : decodeTabGo n h c (d + 1) o [] none none with
      | error e => simp [hgo] at hr
      | ok r =>
        obtain ⟨rows', c', sl, el⟩ := r
        simp only [hgo] at hr
        cases ha : assertExpectedCount rows'.length h.length o with
        | error e => simp [ha] at hr
        | ok u =>
          simp only [ha] at hr
          cases hb : (if o.strict ∧ sl.isSome ∧ el.isSome then
              validateNoBlankLinesInRange (sl.getD 0) (el.getD 0) c'.blanks o.strict
            else .ok ()) with
          | error e => simp [hb] at hr
          | ok u2 =>
            simp only [hb] at hr
            cases hc2 : (if o.strict then validateNoExtraTabularRows c' (d + 1) else .ok ()) with
            | error e => simp [hc2] at hr
            | ok u3 =>
              simp only [hc2, Except.ok.injEq, Prod.mk.injEq] at hr
              have hlen := decodeTabGo_length_le n h c (d + 1) o [] none none
                (rows', c', sl, el) hgo
              rw [← hr.1]
              simpa using hlen

/-- Witness for `c9_bound_amended`: a zero-length list header on an empty
cursor returns the empty array, within the bound. -/
theorem c9_bound_witness :
    ([] : List Json).length ≤ ((0 : Int)).toNat :=
  c9_bound_amended.1 2 ⟨none, 0, Delim.comma, none, false⟩ ⟨[], 0, []⟩ 0 defaultDOpts
    [] ⟨[], 0, []⟩ rfl

-- #endregion

-- #region Claim C7

theorem specSplitRaw_ne_nil (dc : Char) (s : List Char) (q : Bool) :
    specSplitRaw dc s q ≠ [] := by
  cases s with
  | nil => simp [specSplitRaw]
  | cons c rest =>
    simp only [specSplitRaw]
    by_cases h1 : c = '\\' ∧ rest ≠ [] ∧ q = true
    · rw [if_pos h1]
      cases hq : specSplitRaw dc (rest.drop 1) q <;> simp [hq]
    · rw [if_neg h1]
      by_cases h2 : c = '"'
      · rw [if_pos h2]
        cases hq : specSplitRaw dc rest (!q) <;> simp [hq]
      · rw [if_neg h2]
        by_cases h3 : c = dc ∧ q = false
        · rw [if_pos h3]; simp
        · rw [if_neg h3]
          cases hq : specSplitRaw dc rest q <;> simp [hq]

/-- Prepends the pending buffer onto the first raw segment and trims every
segment (the bridge between the loop accumulator of `pdvGo` and the
segment view of `specSplitRaw`). -/
def consFirstTrim (cur : List Char) : List (List Char) → List (List Char)
  | [] => [jsTrim cur]
  | h :: t => jsTrim (cur ++ h) :: t.map jsTrim

theorem pdvGo_cons_not_esc (dc c : Char) (rest : List Char) (q : Bool)
    (cur : List Char) (acc : List (List Char))
    (h : ¬(c = '\\' ∧ rest ≠ [] ∧ q = true)) :
    pdvGo dc (c :: rest) q cur acc =
      (if c = '"' then pdvGo dc rest (!q) (cur ++ [c]) acc
       else if c = dc ∧ q = false then pdvGo dc rest q [] (acc ++ [jsTrim cur])
       else pdvGo dc rest q (cur ++ [c]) acc) := by
  cases rest with
  | nil => simp only [pdvGo, if_neg h]
  | cons hd tl => simp only [pdvGo, if_neg h]

theorem pdvGo_eq_spec (dc : Char) :
    ∀ s q cur acc, (cur ≠ [] ∨ acc ≠ [] ∨ s ≠ []) →
      pdvGo dc s q cur acc = acc ++ consFirstTrim cur (specSplitRaw dc s q) := by
  intro s q cur acc
  induction s, q, cur, acc using pdvGo.induct dc with
  | case1 x cur acc h =>
    intro hyp
    rcases hyp with hc | ha | hs
    · exact absurd h.1 hc
    · exact absurd h.2 ha
    · exact absurd rfl hs
  | case2 x cur acc h =>
    intro _
    simp only [pdvGo, if_neg h]
    simp [specSplitRaw, consFirstTrim]
  | case3 c q cur acc head rest' h ih =>
    intro _
    simp only [pdvGo, if_pos h]
    simp only [specSplitRaw, if_pos h]
    rw [ih (Or.inl (by simp))]
    cases hsp : specSplitRaw dc rest' q with
    | nil => simp [hsp, consFirstTrim]
    | cons h0 t0 => simp [hsp, consFirstTrim, List.append_assoc]
  | case4 c q cur acc h =>
    exact absurd h.2.1 (by simp)
  | case5 rest q cur acc h ih =>
    intro _
    rw [pdvGo_cons_not_esc dc '"' rest q cur acc h, if_pos rfl]
    simp only [specSplitRaw, if_neg h, if_pos rfl]
    rw [ih (Or.inl (by simp))]
    cases hsp : specSplitRaw dc rest (!q) with
    | nil => simp [hsp, consFirstTrim]
    | cons h0 t0 => simp [hsp, consFirstTrim, List.append_assoc]
  | case6 c rest q cur acc h1 h2 h3 ih =>
    intro _
    rw [pdvGo_cons_not_esc dc c rest q cur acc h1, if_neg h2, if_pos h3]
    simp only [specSplitRaw, if_neg h1, if_neg h2, if_pos h3]
    rw [ih (Or.inr (Or.inl (by simp)))]
    cases hsp : specSplitRaw dc rest q with
    | nil => exact absurd hsp (specSplitRaw_ne_nil dc rest q)
    | cons h0 t0 => simp [hsp, consFirstTrim]
  | case7 c rest q cur acc h1 h2 h3 ih =>
    intro _
    rw [pdvGo_cons_not_esc dc c rest q cur acc h1, if_neg h2, if_neg h3]
    simp only [specSplitRaw, if_neg h1, if_neg h2, if_neg h3]
    rw [ih (Or.inl (by simp))]
    cases hsp : specSplitRaw dc rest q with
    | nil => simp [hsp, consFirstTrim]
    | cons h0 t0 => simp [hsp, consFirstTrim, List.append_assoc]

theorem drop_one_append (a b : List Char) (h : a ≠ []) :
    (a ++ b).drop 1 = a.drop 1 ++ b := by
  cases a with
  | nil => exact absurd rfl h
  | cons x t => simp

theorem take_one_append (a b : List Char) (h : a ≠ []) :
    (a ++ b).take 1 = a.take 1 := by
  cases a with
  | nil => exact absurd rfl h
  | cons x t => simp

theorem concat_esc_aux (dc c : Char) (rest : List Char) (q : Bool)
    (h : c = '\\' ∧ rest ≠ [] ∧ q = true)
    (ih : ∃ l, specSplitRaw dc (rest.drop 1 ++ [dc]) q = l ++ [[]] ∧ l ≠ []) :
    ∃ l, specSplitRaw dc (c :: rest ++ [dc]) q = l ++ [[]] ∧ l ≠ [] := by
  obtain ⟨l', hl', hlne⟩ := ih
  cases l' with
  | nil => exact absurd rfl hlne
  | cons h0 t0 =>
    simp only [List.cons_append, specSplitRaw]
    rw [if_pos (show c = '\\' ∧ rest ++ [dc] ≠ [] ∧ q = true from ⟨h.1, by simp, h.2.2⟩)]
    rw [drop_one_append rest [dc] h.2.1, take_one_append rest [dc] h.2.1, hl']
    refine ⟨(c :: (rest.take 1 ++ h0)) :: t0, ?_, by simp⟩
    simp

theorem specSplitRaw_concat (dc : Char) (hdq : dc ≠ '"') (hde : dc ≠ '\\') :
    ∀ s q, scanQState dc s q = false →
      ∃ l, specSplitRaw dc (s ++ [dc]) q = l ++ [[]] ∧ l ≠ [] := by
  intro s q
  induction s, q using specSplitRaw.induct dc with
  | case1 q =>
    intro hs
    have hq : q = false := by simpa [scanQState] using hs
    subst hq
    refine ⟨[[]], ?_, by simp⟩
    simp only [List.nil_append, specSplitRaw]
    rw [if_neg (by simp), if_neg hdq]
    simp
  | case2 c rest q h hspec ih =>
    intro hs
    refine concat_esc_aux dc c rest q h (ih ?_)
    simpa only [scanQState, if_pos h] using hs
  | case3 c rest q h h0 t0 hspec ih =>
    intro hs
    refine concat_esc_aux dc c rest q h (ih ?_)
    simpa only [scanQState, if_pos h] using hs
  | case4 rest q hspec h ih =>
    intro hs
    have hs' : scanQState dc rest (!q) = false := by
      simpa only [scanQState, if_neg h, if_pos rfl] using hs
    obtain ⟨l', hl', hlne⟩ := ih hs'
    cases l' with
    | nil => exact absurd rfl hlne
    | cons h0 t0 =>
      simp only [List.cons_append, specSplitRaw]
      rw [if_neg (by intro hh; exact absurd hh.1 (by decide)), if_pos (by trivial), hl']
      refine ⟨('"' :: h0) :: t0, ?_, by simp⟩
      simp
  | case5 rest q h0' t0' hspec h ih =>
    intro hs
    have hs' : scanQState dc rest (!q) = false := by
      simpa only [scanQState, if_neg h, if_pos rfl] using hs
    obtain ⟨l', hl', hlne⟩ := ih hs'
    cases l' with
    | nil => exact absurd rfl hlne
    | cons h0 t0 =>
      simp only [List.cons_append, specSplitRaw]
      rw [if_neg (by intro hh; exact absurd hh.1 (by decide)), if_pos (by trivial), hl']
      refine ⟨('"' :: h0) :: t0, ?_, by simp⟩
      simp
  | case6 c rest q h1 h2 h3 ih =>
    intro hs
    have hs' : scanQState dc rest q = false := by
      simpa only [scanQState, if_neg h1, if_neg h2] using hs
    obtain ⟨l', hl', hlne⟩ := ih hs'
    refine ⟨[] :: l', ?_, by simp⟩
    simp only [List.cons_append, specSplitRaw]
    rw [if_neg (by intro hh; rw [h3.1] at hh; exact hde hh.1),
      if_neg (by rw [h3.1]; exact hdq), if_pos h3, hl']
  | case7 c rest q h1 h2 h3 hspec ih =>
    intro hs
    have hs' : scanQState dc rest q = false := by
      simpa only [scanQState, if_neg h1, if_neg h2] using hs
    obtain ⟨l', hl', hlne⟩ := ih hs'
    cases l' with
    | nil => exact absurd rfl hlne
    | cons h0 t0 =>
      simp only [List.cons_append, specSplitRaw]
      rw [if_neg (by
          intro hh
          have hrest : rest = [] := by
            by_contra hr
            exact h1 ⟨hh.1, hr, hh.2.2⟩
          rw [hrest, hh.2.2] at hs'
          simp [scanQState] at hs'), if_neg h2,
        if_neg (by intro hh; exact h3 hh), hl']
      refine ⟨(c :: h0) :: t0, ?_, by simp⟩
      simp
  | case8 c rest q h1 h2 h3 h0' t0' hspec ih =>
    intro hs
    have hs' : scanQState dc rest q = false := by
      simpa only [scanQState, if_neg h1, if_neg h2] using hs
    obtain ⟨l', hl', hlne⟩ := ih hs'
    cases l' with
    | nil => exact absurd rfl hlne
    | cons h0 t0 =>
      simp only [List.cons_append, specSplitRaw]
      rw [if_neg (by
          intro hh
          have hrest : rest = [] := by
            by_contra hr
            exact h1 ⟨hh.1, hr, hh.2.2⟩
          rw [hrest, hh.2.2] at hs'
          simp [scanQState] at hs'), if_neg h2,
        if_neg (by intro hh; exact h3 hh), hl']
      refine ⟨(c :: h0) :: t0, ?_, by simp⟩
      simp

theorem parseDelimitedValues_eq_spec (s : List Char) (d : Delim) :
    parseDelimitedValues s d = specParseDelimitedValues s d := by
  cases hs : s with
  | nil => rfl
  | cons c rest =>
    rw [specParseDelimitedValues, if_neg (by simp)]
    rw [parseDelimitedValues, pdvGo_eq_spec d.char (c :: rest) false [] []
      (Or.inr (Or.inr (by simp)))]
    cases hsp : specSplitRaw d.char (c :: rest) false with
    | nil => exact absurd hsp (specSplitRaw_ne_nil _ _ _)
    | cons h0 t0 => simp [consFirstTrim]

theorem dropWhile_idem (p : Char → Bool) (l : List Char) :
    (l.dropWhile p).dropWhile p = l.dropWhile p := by
  induction l with
  | nil => rfl
  | cons c t ih =>
    by_cases h : p c
    · rw [List.dropWhile_cons, if_pos h]; exact ih
    · rw [List.dropWhile_cons, if_neg h, List.dropWhile_cons, if_neg h]

theorem jsTrimEnd_idem (x : List Char) : jsTrimEnd (jsTrimEnd x) = jsTrimEnd x := by
  simp [jsTrimEnd, List.reverse_reverse, dropWhile_idem]

theorem jsTrimStart_head_not (s : List Char) (c : Char) (t : List Char)
    (h : jsTrimStart s = c :: t) : jsWhitespace c = false := by
  induction s generalizing t with
  | nil => simp [jsTrimStart] at h
  | cons a r ih =>
    rw [jsTrimStart, List.dropWhile_cons] at h
    by_cases ha : jsWhitespace a = true
    · rw [if_pos ha] at h
      exact ih t h
    · rw [if_neg ha] at h
      injection h with h1 _
      rw [← h1]
      simpa using ha

theorem jsTrimEnd_prefix (y : List Char) : ∃ r, jsTrimEnd y ++ r = y := by
  obtain ⟨t, ht⟩ := List.dropWhile_suffix (l := y.reverse) (fun c => jsWhitespace c)
  refine ⟨t.reverse, ?_⟩
  rw [jsTrimEnd]
  calc (y.reverse.dropWhile (fun c => jsWhitespace c)).reverse ++ t.reverse
      = (t ++ y.reverse.dropWhile (fun c => jsWhitespace c)).reverse := by
        rw [List.reverse_append]
    _ = y.reverse.reverse := by rw [ht]
    _ = y := List.reverse_reverse y

theorem jsTrim_idem (s : List Char) : jsTrim (jsTrim s) = jsTrim s := by
  have key : jsTrimStart (jsTrimEnd (jsTrimStart s)) = jsTrimEnd (jsTrimStart s) := by
    cases hy : jsTrimEnd (jsTrimStart s) with
    | nil => simp [jsTrimStart]
    | cons c t =>
      obtain ⟨r, hr⟩ := jsTrimEnd_prefix (jsTrimStart s)
      rw [hy] at hr
      have hr' : jsTrimStart s = c :: (t ++ r) := by
        rw [← hr]
        rfl
      have hc : jsWhitespace c = false := jsTrimStart_head_not s c (t ++ r) hr'
      rw [jsTrimStart, List.dropWhile_cons, if_neg (by simp [hc])]
  show jsTrimEnd (jsTrimStart (jsTrimEnd (jsTrimStart s))) = jsTrimEnd (jsTrimStart s)
  rw [key, jsTrimEnd_idem]

/-- Claim C7: `parseDelimitedValues(s, D)` coincides with the spec's
description — the quote-aware raw segments of `s` (state `inQuotes` flipped
by `"`, escape pairs consumed inside quotes, `D` splitting only outside
quotes), each segment trimmed, and the empty list for the entirely empty
input.  Consequently every resulting value is trimmed, a leading delimiter
preserves a leading empty value, and a trailing top-level delimiter
preserves a trailing empty value. -/
theorem c7_split_spec (s : List Char) (d : Delim) :
    parseDelimitedValues s d = specParseDelimitedValues s d
    ∧ (∀ v ∈ parseDelimitedValues s d, jsTrim v = v)
    ∧ parseDelimitedValues [] d = []
    ∧ (∀ s', s = d.char :: s' → (parseDelimitedValues s d).head? = some [])
    ∧ (∀ s', s = s' ++ [d.char] → scanQState d.char s' false = false →
        (parseDelimitedValues s d).getLast? = some []) := by
  have hdq : d.char ≠ '"' := by cases d <;> decide
  have hde : d.char ≠ '\\' := by cases d <;> decide
  refine ⟨parseDelimitedValues_eq_spec s d, ?_, rfl, ?_, ?_⟩
  · intro v hv
    rw [parseDelimitedValues_eq_spec s d, specParseDelimitedValues] at hv
    by_cases hs : s = []
    · rw [if_pos hs] at hv
      simp at hv
    · rw [if_neg hs] at hv
      obtain ⟨w, hw, rfl⟩ := List.mem_map.mp hv
      exact jsTrim_idem w
  · intro s' hs
    subst hs
    rw [parseDelimitedValues_eq_spec _ d, specParseDelimitedValues, if_neg (by simp)]
    simp only [specSplitRaw]
    rw [if_neg (fun hh => hde hh.1), if_neg hdq, if_pos (by exact ⟨trivial, trivial⟩)]
    have hj : jsTrim ([] : List Char) = [] := rfl
    simp [hj]
  · intro s' hs hq
    subst hs
    rw [parseDelimitedValues_eq_spec _ d, specParseDelimitedValues, if_neg (by simp)]
    obtain ⟨l, hl, hlne⟩ := specSplitRaw_concat d.char hdq hde s' false hq
    rw [hl, List.map_append]
    have hj : jsTrim ([] : List Char) = [] := rfl
    simp [List.getLast?_concat, hj]

/-- Witness for `c7_split_spec` at `",a"` (leading empty value) and `"a,"`
(trailing empty value). -/
theorem c7_split_witness :
    (parseDelimitedValues (",a".data) Delim.comma).head? = some []
    ∧ (parseDelimitedValues ("a,".data) Delim.comma).getLast? = some [] :=
  ⟨(c7_split_spec (",a".data) Delim.comma).2.2.2.1 ("a".data) rfl,
   (c7_split_spec ("a,".data) Delim.comma).2.2.2.2 ("a".data) rfl (by simp [scanQState])⟩

-- #endregion

end Toon
